import Mathlib

set_option maxRecDepth 8000

/-!
Shallow embedding of the SNOMED ValueSet to ECL converter
(`extractSnomedEclFromValueSet` and its helpers) from the PRSB
data-model pipeline.  The JScript source works on JavaScript strings with
regular expressions; here strings are modelled as `List Char` at the core
(with `String` wrappers for the public entry points) and each regular
expression of the source is transcribed into an explicit matcher built
from a small set of combinators implementing the ECMAScript semantics the
source relies on: leftmost match, greedy quantifiers with backtracking,
case-insensitive comparison of ASCII letters for the `/i` flag.
-/

/-- The character set matched by the JavaScript regex class `\s`
(ECMAScript WhiteSpace and LineTerminator characters). -/
def isJsSpace (c : Char) : Bool :=
  c = ' ' || c = '\t' || c.val = 11 || c.val = 12 || c = '\n' || c = '\r' ||
  c.val = 0xa0 || c.val = 0x1680 || (0x2000 ≤ c.val && c.val ≤ 0x200a) ||
  c.val = 0x2028 || c.val = 0x2029 || c.val = 0x202f || c.val = 0x205f ||
  c.val = 0x3000 || c.val = 0xfeff

/-- ECMAScript line terminators; the regex `.` matches every character
except these. -/
def isLineTerm (c : Char) : Bool :=
  c = '\n' || c = '\r' || c.val = 0x2028 || c.val = 0x2029

/-- A character the regex `.` matches. -/
def isDotChar (c : Char) : Bool := !isLineTerm c

/-- Case-insensitive character comparison as performed by the `/i` flag on
ASCII pattern characters (ECMAScript canonicalisation never lets a
non-ASCII input character match an ASCII pattern character). -/
def ciChar (pat inp : Char) : Bool := pat.toLower = inp.toLower

/-- Case-insensitive test that `w` is a prefix of `s` (for `/i` literals). -/
def ciStarts : List Char → List Char → Bool
  | [], _ => true
  | _ :: _, [] => false
  | p :: ps, c :: cs => ciChar p c && ciStarts ps cs

/-- `trimString` of the source: removes leading and trailing `\s`
characters (the source uses `str.replace(/^\s+|\s+$/g, "")`). -/
def trimL (l : List Char) : List Char :=
  ((l.dropWhile isJsSpace).reverse.dropWhile isJsSpace).reverse

/-- String-level wrapper of `trimL`, named after the source function. -/
def trimString (s : String) : String := String.mk (trimL s.data)

/-- The number of UTF-16 code units of a string: JavaScript's
`String.prototype.length`, used by the source for its length tests. -/
def utf16Length (s : String) : Nat :=
  s.data.foldl (fun a c => a + if c.val < 0x10000 then 1 else 2) 0

/-!  Backtracking combinators.  A matcher in continuation-passing style
receives the remaining input and a continuation; greedy quantifiers first
hand the continuation the longest possible remainder and on failure give
characters back one at a time, exactly as the ECMAScript backtracking
matcher does. -/

/-- Give back already-consumed characters (held reversed in `back`) one at
a time until the continuation succeeds. -/
def btGive (back : List Char) (rest : List Char) (k : List Char → Option γ) :
    Option γ :=
  match k rest with
  | some g => some g
  | none =>
    match back with
    | [] => none
    | c :: back2 => btGive back2 (c :: rest) k

/-- Greedy `p*` over a character class, with backtracking. -/
def clsStar (p : Char → Bool) (s : List Char) (k : List Char → Option γ) :
    Option γ :=
  btGive (s.takeWhile p).reverse (s.drop (s.takeWhile p).length) k

/-- Greedy `p+` over a character class, with backtracking. -/
def clsPlus (p : Char → Bool) (s : List Char) (k : List Char → Option γ) :
    Option γ :=
  match s with
  | [] => none
  | c :: t => if p c then clsStar p t k else none

/-- Case-insensitive literal. -/
def litCI (w : List Char) (s : List Char) (k : List Char → Option γ) :
    Option γ :=
  if ciStarts w s then k (s.drop w.length) else none

/-- A single character of a class. -/
def chCls (p : Char → Bool) (s : List Char) (k : List Char → Option γ) :
    Option γ :=
  match s with
  | [] => none
  | c :: t => if p c then k t else none

/-- Greedy optional literal (`(?:lit)?`), with backtracking. -/
def optLitCI (w : List Char) (s : List Char) (k : List Char → Option γ) :
    Option γ :=
  match litCI w s k with
  | some g => some g
  | none => k s

/-- Greedy optional single character of a class (`[..]?`), with
backtracking. -/
def optCh (p : Char → Bool) (s : List Char) (k : List Char → Option γ) :
    Option γ :=
  match s with
  | [] => k s
  | c :: t =>
    if p c then
      match k t with
      | some g => some g
      | none => k s
    else k s

/-- Backtracking helper for capturing quantifiers: the candidate capture
is held reversed in `capRev`; the continuation receives the capture and
the remainder; on failure one character is given back at a time while at
least `low` captured characters remain. -/
def btGiveCap (low : Nat) : List Char → List Char →
    (List Char → List Char → Option γ) → Option γ
  | [], rest, k => k [] rest
  | c :: cr, rest, k =>
    match k ((c :: cr).reverse) rest with
    | some g => some g
    | none =>
      if cr.length < low then none else btGiveCap low cr (c :: rest) k

/-- Greedy capturing `(p+)`. -/
def capPlus (p : Char → Bool) (s : List Char)
    (k : List Char → List Char → Option γ) : Option γ :=
  let run := s.takeWhile p
  if run.isEmpty then none
  else btGiveCap 1 run.reverse (s.drop run.length) k

/-- Greedy capturing bounded repetition `(p{low,high})`. -/
def capBounded (p : Char → Bool) (low high : Nat) (s : List Char)
    (k : List Char → List Char → Option γ) : Option γ :=
  let run := (s.takeWhile p).take high
  if run.length < low then none
  else btGiveCap low run.reverse (s.drop run.length) k

/-- Leftmost-match search: try the matcher at every start position from
the left, as an unanchored ECMAScript regex does. -/
def searchAt (m : List Char → Option γ) : List Char → Option γ
  | [] => m []
  | c :: t =>
    match m (c :: t) with
    | some g => some g
    | none => searchAt m t

/-! Character classes appearing in the source regexes. -/

/-- The class `[\s\-]`. -/
def isWsDash (c : Char) : Bool := isJsSpace c || c = '-'

/-- The class `[\s\(UK\)]` under the `/i` flag. -/
def inClsUK (c : Char) : Bool :=
  isJsSpace c || c = '(' || c = ')' || c = 'U' || c = 'K' || c = 'u' || c = 'k'

/-!  Matchers for the source's regex patterns, one per pattern, each a
direct transcription of the regex.  The `...At` functions match at the
current position; the wrappers without `At` perform the unanchored
leftmost search done by `String.prototype.match`. -/

/-- Pattern 1 of the source, `/SNOMED[\s\-]*CT\s*(?:\(UK\))?\s*:-?\s*(.+)/i`,
matched at the current position; returns capture group 1. -/
def matchComplexEclAt (s : List Char) : Option (List Char) :=
  litCI "SNOMED".data s fun r =>
  clsStar isWsDash r fun r =>
  litCI "CT".data r fun r =>
  clsStar isJsSpace r fun r =>
  optLitCI "(UK)".data r fun r =>
  clsStar isJsSpace r fun r =>
  chCls (fun c => c = ':') r fun r =>
  optCh (fun c => c = '-') r fun r =>
  clsStar isJsSpace r fun r =>
  capPlus isDotChar r fun cap _ => some cap

/-- Unanchored search for pattern 1. -/
def matchComplexEcl (s : List Char) : Option (List Char) :=
  searchAt matchComplexEclAt s

/-- Tail `[\s\(UK\)]?\s*:?\s*(.+)` of pattern 2; returns capture group 2. -/
def altTailAt (r : List Char) : Option (List Char) :=
  optCh inClsUK r fun r =>
  clsStar isJsSpace r fun r =>
  optCh (fun c => c = ':') r fun r =>
  clsStar isJsSpace r fun r =>
  capPlus isDotChar r fun cap _ => some cap

/-- Pattern 2, `/(SCT|SNOMEDCT|SNOMED[\s\-]*CT)[\s\(UK\)]?\s*:?\s*(.+)/i`,
matched at the current position; returns capture group 2. -/
def matchAltPrefixAt (s : List Char) : Option (List Char) :=
  match litCI "SCT".data s altTailAt with
  | some g => some g
  | none =>
  match litCI "SNOMEDCT".data s altTailAt with
  | some g => some g
  | none =>
  litCI "SNOMED".data s fun r =>
  clsStar isWsDash r fun r =>
  litCI "CT".data r altTailAt

/-- Unanchored search for pattern 2. -/
def matchAltPrefix (s : List Char) : Option (List Char) :=
  searchAt matchAltPrefixAt s

/-- Pattern 3, `/dm\+d:\s*(\d+)/i`, at the current position. -/
def matchDmdAt (s : List Char) : Option (List Char) :=
  litCI "dm+d:".data s fun r =>
  clsStar isJsSpace r fun r =>
  capPlus Char.isDigit r fun cap _ => some cap

/-- Unanchored search for pattern 3. -/
def matchDmd (s : List Char) : Option (List Char) := searchAt matchDmdAt s

/-- The head `SNOMED[\s\-]*CT[\s\(UK\)]?\s*:?\s*` shared by source
patterns 4-9 and 11 (under `/i`). -/
def snomedCtHeadAt (s : List Char) (k : List Char → Option γ) : Option γ :=
  litCI "SNOMED".data s fun r =>
  clsStar isWsDash r fun r =>
  litCI "CT".data r fun r =>
  optCh inClsUK r fun r =>
  clsStar isJsSpace r fun r =>
  optCh (fun c => c = ':') r fun r =>
  clsStar isJsSpace r k

/-- The optional piped display term `(?:\|([^|]+)\|)?`; the continuation
receives the optional capture. -/
def optPipedTerm (s : List Char)
    (k : Option (List Char) → List Char → Option γ) : Option γ :=
  match (match s with
    | '|' :: t =>
      capPlus (fun c => c ≠ '|') t fun cap r =>
        (match r with
         | '|' :: r2 => k (some cap) r2
         | _ => none)
    | _ => none) with
  | some g => some g
  | none => k none s

/-- Pattern 4,
`/SNOMED[\s\-]*CT[\s\(UK\)]?\s*:?\s*-?\s*\^(\d{6,18})\s*(?:\|([^|]+)\|)?/i`,
at the current position; returns the refset id and optional term. -/
def matchRefsetAt (s : List Char) : Option (List Char × Option (List Char)) :=
  snomedCtHeadAt s fun r =>
  optCh (fun c => c = '-') r fun r =>
  clsStar isJsSpace r fun r =>
  chCls (fun c => c = '^') r fun r =>
  capBounded Char.isDigit 6 18 r fun id r =>
  clsStar isJsSpace r fun r =>
  optPipedTerm r fun t _ => some (id, t)

/-- Unanchored search for pattern 4. -/
def matchRefset (s : List Char) : Option (List Char × Option (List Char)) :=
  searchAt matchRefsetAt s

/-- Pattern 5, `/SNOMED[\s\-]*CT[\s\(UK\)]?\s*:?\s*(\d{6,18})\s*`
`(?:\|([^|]+)\|)?\s*(?:\(exact\)|only|self)/i`, at the current position. -/
def matchExactAt (s : List Char) : Option (List Char × Option (List Char)) :=
  snomedCtHeadAt s fun r =>
  capBounded Char.isDigit 6 18 r fun id r =>
  clsStar isJsSpace r fun r =>
  optPipedTerm r fun t r =>
  clsStar isJsSpace r fun r =>
  (match litCI "(exact)".data r (fun _ => some (id, t)) with
   | some g => some g
   | none =>
   match litCI "only".data r (fun _ => some (id, t)) with
   | some g => some g
   | none => litCI "self".data r (fun _ => some (id, t)))

/-- Unanchored search for pattern 5. -/
def matchExact (s : List Char) : Option (List Char × Option (List Char)) :=
  searchAt matchExactAt s

/-- The common shape of source patterns 6-9:
`SNOMED[\s\-]*CT[\s\(UK\)]?\s*:?\s*-?\s*OP\s*(\d{6,18})\s*(?:\|([^|]+)\|)?`
where `OP` is one of `<<`, `<`, `>>`, `>`. -/
def matchOpConceptAt (op : List Char) (s : List Char) :
    Option (List Char × Option (List Char)) :=
  snomedCtHeadAt s fun r =>
  optCh (fun c => c = '-') r fun r =>
  clsStar isJsSpace r fun r =>
  litCI op r fun r =>
  clsStar isJsSpace r fun r =>
  capBounded Char.isDigit 6 18 r fun id r =>
  clsStar isJsSpace r fun r =>
  optPipedTerm r fun t _ => some (id, t)

/-- Unanchored search for the operator patterns 6-9. -/
def matchOpConcept (op : List Char) (s : List Char) :
    Option (List Char × Option (List Char)) :=
  searchAt (matchOpConceptAt op) s

/-- Pattern 10, `/snomed\.info\/sct\?fhir_vs=ecl\/(.+)/i`, at a position. -/
def matchFhirEclAt (s : List Char) : Option (List Char) :=
  litCI "snomed.info/sct?fhir_vs=ecl/".data s fun r =>
  capPlus isDotChar r fun cap _ => some cap

/-- Unanchored search for pattern 10. -/
def matchFhirEcl (s : List Char) : Option (List Char) :=
  searchAt matchFhirEclAt s

/-- Pattern 10b, `/snomed\.info\/sct\?fhir_vs=refset\/(\d{6,18})/i`. -/
def matchFhirRefsetAt (s : List Char) : Option (List Char) :=
  litCI "snomed.info/sct?fhir_vs=refset/".data s fun r =>
  capBounded Char.isDigit 6 18 r fun id _ => some id

/-- Unanchored search for pattern 10b. -/
def matchFhirRefset (s : List Char) : Option (List Char) :=
  searchAt matchFhirRefsetAt s

/-- Pattern 11, `/SNOMED[\s\-]*CT[\s\(UK\)]?\s*:?\s*(\d{6,18})/i`. -/
def matchSimpleConceptAt (s : List Char) : Option (List Char) :=
  snomedCtHeadAt s fun r =>
  capBounded Char.isDigit 6 18 r fun id _ => some id

/-- Unanchored search for pattern 11. -/
def matchSimpleConcept (s : List Char) : Option (List Char) :=
  searchAt matchSimpleConceptAt s

/-- Pattern 12, `/SNOMED[^:]*:\s*([\d\s,]+)/i`. -/
def matchMultipleAt (s : List Char) : Option (List Char) :=
  litCI "SNOMED".data s fun r =>
  clsStar (fun c => c ≠ ':') r fun r =>
  chCls (fun c => c = ':') r fun r =>
  clsStar isJsSpace r fun r =>
  capPlus (fun c => Char.isDigit c || isJsSpace c || c = ',') r
    fun cap _ => some cap

/-- Unanchored search for pattern 12. -/
def matchMultiple (s : List Char) : Option (List Char) :=
  searchAt matchMultipleAt s

/-- Pattern 13a, `/^\^(\d{6,18})/` (anchored at the start). -/
def matchStandaloneRefset (s : List Char) : Option (List Char) :=
  match s with
  | '^' :: t => capBounded Char.isDigit 6 18 t fun id _ => some id
  | _ => none

/-- The optional operator group `(?:<{1,2}|>{1,2})?` of pattern 13b, with
the greedy alternative order of the regex. -/
def opOptAt (s : List Char) (k : List Char → Option γ) : Option γ :=
  match litCI "<<".data s k with
  | some g => some g
  | none =>
  match litCI "<".data s k with
  | some g => some g
  | none =>
  match litCI ">>".data s k with
  | some g => some g
  | none =>
  match litCI ">".data s k with
  | some g => some g
  | none => k s

/-- Pattern 13b, `/(?:<{1,2}|>{1,2})?\s*(\d{6,18})\s*(?:\|([^|]+)\|)?/`. -/
def matchStandaloneConceptAt (s : List Char) :
    Option (List Char × Option (List Char)) :=
  opOptAt s fun r =>
  clsStar isJsSpace r fun r =>
  capBounded Char.isDigit 6 18 r fun id r =>
  clsStar isJsSpace r fun r =>
  optPipedTerm r fun t _ => some (id, t)

/-- Unanchored search for pattern 13b. -/
def matchStandaloneConcept (s : List Char) :
    Option (List Char × Option (List Char)) :=
  searchAt matchStandaloneConceptAt s

/-- The guard `/^[\d\s,]+$/` used before pattern 13b fires (a pure
comma/space-separated number list is not treated as a standalone
concept). -/
def isPureNumberList (s : List Char) : Bool :=
  !s.isEmpty && s.all (fun c => Char.isDigit c || isJsSpace c || c = ',')

/-- Successive matches of `/\d{6,18}/g` as used on the capture of
pattern 12; fuel-driven recursion, with fuel equal to the input length
(each step consumes at least one character, so the fuel never runs out). -/
def globalD618Go : Nat → List Char → List (List Char)
  | _, [] => []
  | 0, _ => []
  | fuel+1, c :: t =>
    if Char.isDigit c then
      let run := c :: t.takeWhile Char.isDigit
      let rest := t.drop (t.takeWhile Char.isDigit).length
      if 6 ≤ run.length then
        run.take 18 :: globalD618Go fuel (run.drop 18 ++ rest)
      else globalD618Go fuel rest
    else globalD618Go fuel t

/-- All `/\d{6,18}/g` matches of a string. -/
def globalD618 (s : List Char) : List (List Char) :=
  globalD618Go s.length s

/-!  Global regex replacement (`String.prototype.replace` with `/g`):
scan left to right, replace each match, continue after the consumed
text.  Fuel-driven recursion; every matcher used here consumes at least
one character on success, so fuel equal to the input length suffices and
the fuel-exhaustion branch is unreachable. -/

/-- Global replace: `mAt` returns the replacement text and the remainder
after the match when the pattern matches at the current position. -/
def replaceG (mAt : List Char → Option (List Char × List Char)) :
    Nat → List Char → List Char
  | _, [] => []
  | 0, s => s
  | fuel+1, c :: t =>
    match mAt (c :: t) with
    | some (rep, rest) => rep ++ replaceG mAt fuel rest
    | none => c :: replaceG mAt fuel t

/-- Run a global replacement over a whole string. -/
def replaceStage (mAt : List Char → Option (List Char × List Char))
    (s : List Char) : List Char :=
  replaceG mAt s.length s

/-- Match of `/\s+KW\s+/gi` (for `KW` one of `or`, `and`, `minus`) at the
current position, yielding the replacement `" KW "` in upper case.  The
greedy `\s+` runs are maximal: a shorter run would leave a whitespace
character where the keyword letter must stand, so maximal munch is exact
here. -/
def kwJoinAt (w upperW : List Char) (s : List Char) :
    Option (List Char × List Char) :=
  let ws1 := s.takeWhile isJsSpace
  if ws1.isEmpty then none
  else
    let r1 := s.drop ws1.length
    if ciStarts w r1 then
      let r2 := r1.drop w.length
      let ws2 := r2.takeWhile isJsSpace
      if ws2.isEmpty then none
      else some (' ' :: (upperW ++ [' ']), r2.drop ws2.length)
    else none

/-- Match of `/\s*<{1,2}\s*/g` (or the `>` version) at the current
position; the source replaces the match by the match with its whitespace
deleted followed by one space, i.e. by the operator run and a space. -/
def opRunAt (opChar : Char) (s : List Char) :
    Option (List Char × List Char) :=
  let ws1 := s.takeWhile isJsSpace
  let r1 := s.drop ws1.length
  let ops := (r1.takeWhile (fun c => c = opChar)).take 2
  if ops.isEmpty then none
  else
    let r2 := r1.drop ops.length
    let ws2 := r2.takeWhile isJsSpace
    some (ops ++ [' '], r2.drop ws2.length)

/-- Match of `/\s*\^\s*/g` at the current position; the source replaces
the match by the literal `"^ "`. -/
def caretRunAt (s : List Char) : Option (List Char × List Char) :=
  let ws1 := s.takeWhile isJsSpace
  match s.drop ws1.length with
  | c :: r2 =>
    if c = '^' then
      let ws2 := r2.takeWhile isJsSpace
      some (['^', ' '], r2.drop ws2.length)
    else none
  | [] => none

/-- The deterministic tail `\s*\([^)]+\)\s*\|` of the semantic-tag
pattern (each run is maximal because the following literal is outside the
run's class). -/
def tagTail (r : List Char) : Option (List Char) :=
  let ws := r.takeWhile isJsSpace
  match r.drop ws.length with
  | c :: u =>
    if c = '(' then
      let inner := u.takeWhile (fun c2 => c2 ≠ ')')
      if inner.isEmpty then none
      else
        match u.drop inner.length with
        | c2 :: w =>
          if c2 = ')' then
            let ws2 := w.takeWhile isJsSpace
            match w.drop ws2.length with
            | c3 :: rest => if c3 = '|' then some rest else none
            | [] => none
          else none
        | [] => none
    else none
  | [] => none

/-- Match of `/\|([^|]+)\s*\([^)]+\)\s*\|/g` at the current position,
with the source's replacement `"|" + trimString(term) + "|"`; the greedy
capture `([^|]+)` backtracks from the longest candidate. -/
def tagMatchAt (s : List Char) : Option (List Char × List Char) :=
  match s with
  | c0 :: t =>
    if c0 = '|' then
      let capMax := t.takeWhile (fun c => c ≠ '|')
      if capMax.isEmpty then none
      else
        match btGiveCap 1 capMax.reverse (t.drop capMax.length) (fun cap r =>
          match tagTail r with
          | some rest => some (cap, rest)
          | none => none) with
        | some (cap, rest) => some ('|' :: (trimL cap ++ ['|']), rest)
        | none => none
    else none
  | [] => none

/-- Match of `/\s+/g` at the current position (whitespace collapsing). -/
def wsRunAt (s : List Char) : Option (List Char × List Char) :=
  let run := s.takeWhile isJsSpace
  if run.isEmpty then none else some ([' '], s.drop run.length)

/-- `cleanAndStandardizeEcl` of the source on character lists: trim,
uppercase the logical keywords, normalise operator spacing, strip
semantic tags inside piped terms, collapse whitespace, trim. -/
def cleanAndStandardizeEclL (e : List Char) : List Char :=
  let c0 := trimL e
  let c1 := replaceStage (kwJoinAt "or".data "OR".data) c0
  let c2 := replaceStage (kwJoinAt "and".data "AND".data) c1
  let c3 := replaceStage (kwJoinAt "minus".data "MINUS".data) c2
  let c4 := replaceStage (opRunAt '<') c3
  let c5 := replaceStage (opRunAt '>') c4
  let c6 := replaceStage caretRunAt c5
  let c7 := replaceStage tagMatchAt c6
  let c8 := replaceStage wsRunAt c7
  trimL c8

/-- `cleanAndStandardizeEcl` of the source. -/
def cleanAndStandardizeEcl (s : String) : String :=
  String.mk (cleanAndStandardizeEclL s.data)

/-- Match test of the end-anchored `/\s*\([^)]+\)\s*$/` at the current
position (used by `cleanConceptTerm`). -/
def endParenAt (s : List Char) : Bool :=
  let ws := s.takeWhile isJsSpace
  match s.drop ws.length with
  | '(' :: u =>
    let inner := u.takeWhile (fun c => c ≠ ')')
    if inner.isEmpty then false
    else
      match u.drop inner.length with
      | ')' :: w => (w.dropWhile isJsSpace).isEmpty
      | _ => false
  | _ => false

/-- Remove the suffix at the first position where the end-anchored
semantic-tag pattern matches. -/
def stripEndParen : List Char → List Char
  | [] => []
  | c :: t => if endParenAt (c :: t) then [] else c :: stripEndParen t

/-- `cleanConceptTerm` of the source on character lists:
`trimString(term.replace(/\s*\([^)]+\)\s*$/g, ""))`. -/
def cleanConceptTermL (t : List Char) : List Char := trimL (stripEndParen t)

/-- `cleanConceptTerm` of the source. -/
def cleanConceptTerm (s : String) : String :=
  String.mk (cleanConceptTermL s.data)

/-!  The validity gate `isValidEclExpression`. -/

/-- Substring search: does the predicate hold at some suffix?  This is
the `test` of an unanchored regex whose match attempt at a position is
`p`. -/
def findSubB (p : List Char → Bool) : List Char → Bool
  | [] => p []
  | c :: t => p (c :: t) || findSubB p t

/-- Test of a one-character class at the current position. -/
def classHeadB (p : Char → Bool) (s : List Char) : Bool :=
  match s with
  | c :: _ => p c
  | [] => false

/-- Match attempt of `/[<>^]|AND|OR|MINUS/i` at a position. -/
def opOrKwAt (s : List Char) : Bool :=
  classHeadB (fun c => c = '<' || c = '>' || c = '^') s ||
  ciStarts "AND".data s || ciStarts "OR".data s || ciStarts "MINUS".data s

/-- Test of `/[<>^]|AND|OR|MINUS/i` (the `hasEclOperators` check). -/
def hasEclOperators (s : List Char) : Bool := findSubB opOrKwAt s

/-- Match attempt of `/\d{6,18}/` at a position: at least six digits
follow. -/
def d618PrefixAt (s : List Char) : Bool :=
  6 ≤ (s.takeWhile Char.isDigit).length

/-- Test of `/\d{6,18}/` (the `hasConceptIds` check). -/
def hasConceptIds (s : List Char) : Bool := findSubB d618PrefixAt s

/-- One alternative `KW\s+` after the leading whitespace of the
logical-join pattern. -/
def kwTail (w : List Char) (r : List Char) : Bool :=
  ciStarts w r && !((r.drop w.length).takeWhile isJsSpace).isEmpty

/-- Match attempt of `/\s+(or|and|minus)\s+/i` at a position. -/
def kwJoinTestAt (s : List Char) : Bool :=
  !(s.takeWhile isJsSpace).isEmpty &&
    (let r1 := s.drop (s.takeWhile isJsSpace).length
     kwTail "or".data r1 || kwTail "and".data r1 || kwTail "minus".data r1)

/-- The tail `\s*\d` of the operator-digit pattern. -/
def opDigitTail (t : List Char) : Bool :=
  match t.dropWhile isJsSpace with
  | c :: _ => c.isDigit
  | [] => false

/-- After one `<` or `>`: the rest of `<{1,2}\s*\d` (the greedy
two-character operator run is tried first, then the one-character
run). -/
def opsTail (op : Char) (t : List Char) : Bool :=
  match t with
  | c :: t2 =>
    if c = op then opDigitTail t2 || opDigitTail (c :: t2) else opDigitTail t
  | [] => false

/-- Match attempt of `/<{1,2}\s*\d|>{1,2}\s*\d|\^\s*\d/` at a position. -/
def opDigitAt (s : List Char) : Bool :=
  match s with
  | c :: t =>
    if c = '<' then opsTail '<' t
    else if c = '>' then opsTail '>' t
    else if c = '^' then opDigitTail t
    else false
  | [] => false

/-- The `hasLogicalStructure` check of the source. -/
def hasLogicalStructure (s : List Char) : Bool :=
  findSubB kwJoinTestAt s || findSubB opDigitAt s

/-- UTF-16 length on character lists. -/
def utf16LengthL (l : List Char) : Nat :=
  l.foldl (fun a c => a + if c.val < 0x10000 then 1 else 2) 0

/-- `isValidEclExpression` of the source on character lists. -/
def isValidEclExpressionL (e : List Char) : Bool :=
  hasEclOperators e && hasConceptIds e &&
    (hasLogicalStructure e || 20 < utf16LengthL e)

/-- `isValidEclExpression` of the source. -/
def isValidEclExpression (s : String) : Bool := isValidEclExpressionL s.data

/-!  `decodeURIComponent` (ECMAScript Decode): percent-escapes are decoded
to bytes and the byte sequence is read as strict UTF-8; a malformed
escape or byte sequence raises `URIError`, modelled as `none`. -/

/-- Value of a hexadecimal digit. -/
def hexDigitVal (c : Char) : Option Nat :=
  if c.isDigit then some (c.toNat - 48)
  else if 'A' ≤ c && c ≤ 'F' then some (c.toNat - 55)
  else if 'a' ≤ c && c ≤ 'f' then some (c.toNat - 87)
  else none

/-- The low six bits of a UTF-8 continuation byte written as `%XY`. -/
def contBits (h1 h2 : Char) : Option Nat :=
  match hexDigitVal h1, hexDigitVal h2 with
  | some a, some b =>
    let byte := 16 * a + b
    if 0x80 ≤ byte && byte < 0xC0 then some (byte - 0x80) else none
  | _, _ => none

/-- Core of `decodeURIComponent` on character lists. -/
def decodeURIComponentGo : List Char → Option (List Char)
  | [] => some []
  | '%' :: h1 :: h2 :: rest =>
    match hexDigitVal h1, hexDigitVal h2 with
    | some a, some b =>
      let byte := 16 * a + b
      if byte < 0x80 then
        (decodeURIComponentGo rest).map (fun l => Char.ofNat byte :: l)
      else if byte < 0xC2 then none
      else if byte < 0xE0 then
        match rest with
        | '%' :: c1 :: c2 :: rest2 =>
          match contBits c1 c2 with
          | some x =>
            (decodeURIComponentGo rest2).map
              (fun l => Char.ofNat ((byte - 0xC0) * 64 + x) :: l)
          | none => none
        | _ => none
      else if byte < 0xF0 then
        match rest with
        | '%' :: c1 :: c2 :: '%' :: c3 :: c4 :: rest2 =>
          match contBits c1 c2, contBits c3 c4 with
          | some x, some y =>
            let cp := (byte - 0xE0) * 4096 + x * 64 + y
            if cp < 0x800 || (0xD800 ≤ cp && cp ≤ 0xDFFF) then none
            else (decodeURIComponentGo rest2).map (fun l => Char.ofNat cp :: l)
          | _, _ => none
        | _ => none
      else if byte < 0xF5 then
        match rest with
        | '%' :: c1 :: c2 :: '%' :: c3 :: c4 :: '%' :: c5 :: c6 :: rest2 =>
          match contBits c1 c2, contBits c3 c4, contBits c5 c6 with
          | some x, some y, some z =>
            let cp := (byte - 0xF0) * 262144 + x * 4096 + y * 64 + z
            if cp < 0x10000 || 0x10FFFF < cp then none
            else (decodeURIComponentGo rest2).map (fun l => Char.ofNat cp :: l)
          | _, _, _ => none
        | _ => none
      else none
    | _, _ => none
  | '%' :: _ => none
  | c :: rest => (decodeURIComponentGo rest).map (fun l => c :: l)

/-- `decodeURIComponent`; `none` models a thrown `URIError`. -/
def decodeURIComponent (s : String) : Option String :=
  (decodeURIComponentGo s.data).map String.mk

/-!  The fifteen recognizers of `extractSnomedEclFromValueSet`, in the
source's order.  Each takes the trimmed descriptor and returns
`.ok (some result)` when its block of the source would `return result`,
`.ok none` when the block falls through to the next pattern, and
`.error` when the block would raise (only possible for the FHIR ECL URL
recognizer, whose `decodeURIComponent` call can throw). -/

/-- `URIError` thrown by `decodeURIComponent`. -/
inductive UriError where
  | malformed
deriving Repr, DecidableEq

/-- The result type of one recognizer block. -/
abbrev RecStep := Except UriError (Option String)

/-- Pattern 1: complex ECL expressions behind a `SNOMED CT:` label,
accepted only when the validity gate passes. -/
def recComplexEcl (v : List Char) : RecStep :=
  match matchComplexEcl v with
  | some tail =>
    let eclExpression := trimL tail
    if isValidEclExpressionL eclExpression then
      .ok (some (String.mk (cleanAndStandardizeEclL eclExpression)))
    else .ok none
  | none => .ok none

/-- Pattern 2: alternative SNOMED prefixes (`SCT`, `SNOMEDCT`, ...),
skipped whenever pattern 1's regex matched (the source's
`altMatch && !complexMatch` guard), and gated like pattern 1. -/
def recAltPrefix (v : List Char) : RecStep :=
  match matchAltPrefix v, matchComplexEcl v with
  | some tail, none =>
    let expression := trimL tail
    if isValidEclExpressionL expression then
      .ok (some (String.mk (cleanAndStandardizeEclL expression)))
    else .ok none
  | _, _ => .ok none

/-- Pattern 3: UK dm+d codes. -/
def recDmd (v : List Char) : RecStep :=
  match matchDmd v with
  | some code => .ok (some ("< " ++ String.mk code ++ " |dm+d concept|"))
  | none => .ok none

/-- Pattern 4: reference sets marked with a caret. -/
def recRefset (v : List Char) : RecStep :=
  match matchRefset v with
  | some (id, t) =>
    let name :=
      match t with
      | some term => String.mk (trimL term)
      | none => "SNOMED CT reference set"
    .ok (some ("^ " ++ String.mk id ++ " |" ++ name ++ "|"))
  | none => .ok none

/-- Pattern 5: exact concept (self only), no operator prefix. -/
def recExact (v : List Char) : RecStep :=
  match matchExact v with
  | some (id, t) =>
    let term :=
      match t with
      | some term => String.mk (cleanConceptTermL (trimL term))
      | none => "SNOMED CT concept"
    .ok (some (String.mk id ++ " |" ++ term ++ "|"))
  | none => .ok none

/-- Shared builder for patterns 6-9. -/
def recOpConcept (op : List Char) (outOp : String) (v : List Char) : RecStep :=
  match matchOpConcept op v with
  | some (id, t) =>
    let term :=
      match t with
      | some term => String.mk (cleanConceptTermL (trimL term))
      | none => "SNOMED CT concept"
    .ok (some (outOp ++ " " ++ String.mk id ++ " |" ++ term ++ "|"))
  | none => .ok none

/-- Pattern 6: descendants including self. -/
def recDescendantsInclusive : List Char → RecStep :=
  recOpConcept "<<".data "<<"

/-- Pattern 7: descendants excluding self. -/
def recDescendantsExclusive : List Char → RecStep :=
  recOpConcept "<".data "<"

/-- Pattern 8: ancestors including self. -/
def recAncestorsInclusive : List Char → RecStep :=
  recOpConcept ">>".data ">>"

/-- Pattern 9: ancestors excluding self. -/
def recAncestorsExclusive : List Char → RecStep :=
  recOpConcept ">".data ">"

/-- Pattern 10: FHIR ECL value-set URLs; the decoded expression is
canonicalised and returned unconditionally, and a malformed escape
sequence raises. -/
def recFhirEcl (v : List Char) : RecStep :=
  match matchFhirEcl v with
  | some cap =>
    match decodeURIComponentGo cap with
    | some d => .ok (some (String.mk (cleanAndStandardizeEclL d)))
    | none => .error .malformed
  | none => .ok none

/-- Pattern 10b: FHIR reference-set URLs. -/
def recFhirRefset (v : List Char) : RecStep :=
  match matchFhirRefset v with
  | some id => .ok (some ("^ " ++ String.mk id ++ " |SNOMED CT reference set|"))
  | none => .ok none

/-- Pattern 11: simple concept id with SNOMED context. -/
def recSimpleConcept (v : List Char) : RecStep :=
  match matchSimpleConcept v with
  | some id => .ok (some ("< " ++ String.mk id ++ " |SNOMED CT concept|"))
  | none => .ok none

/-- Pattern 12: multiple concept ids in a list under a SNOMED label; the
block falls through when the captured list holds no 6-18-digit run. -/
def recMultipleConcepts (v : List Char) : RecStep :=
  match matchMultiple v with
  | some cap =>
    match globalD618 cap with
    | [] => .ok none
    | [id] => .ok (some ("< " ++ String.mk id ++ " |SNOMED CT concept|"))
    | ids =>
      .ok (some (String.intercalate " OR "
        (ids.map (fun id => "< " ++ String.mk id ++ " |SNOMED CT concept|"))))
  | none => .ok none

/-- Pattern 13a: standalone reference set. -/
def recStandaloneRefset (v : List Char) : RecStep :=
  match matchStandaloneRefset v with
  | some id => .ok (some ("^ " ++ String.mk id ++ " |SNOMED CT reference set|"))
  | none => .ok none

/-- Pattern 13b: standalone concept, refused for pure number lists. -/
def recStandaloneConcept (v : List Char) : RecStep :=
  match matchStandaloneConcept v, isPureNumberList v with
  | some (id, t), false =>
    let term :=
      match t with
      | some term => String.mk (cleanConceptTermL (trimL term))
      | none => "SNOMED CT concept"
    .ok (some ("< " ++ String.mk id ++ " |" ++ term ++ "|"))
  | _, _ => .ok none

/-- The recognizer blocks in the source's order. -/
def recognizers : List (List Char → RecStep) :=
  [recComplexEcl, recAltPrefix, recDmd, recRefset, recExact,
   recDescendantsInclusive, recDescendantsExclusive,
   recAncestorsInclusive, recAncestorsExclusive,
   recFhirEcl, recFhirRefset, recSimpleConcept, recMultipleConcepts,
   recStandaloneRefset, recStandaloneConcept]

/-- Sequential early-return evaluation of the recognizer blocks: the
first block that produces a result (fires) ends the function with that
result; a block that falls through passes control to the next; reaching
the end yields the empty string. -/
def runRecognizers : List (List Char → RecStep) → List Char →
    Except UriError String
  | [], _ => .ok ""
  | r :: rs, v =>
    match r v with
    | .error e => .error e
    | .ok (some s) => .ok s
    | .ok none => runRecognizers rs v

/-- `extractSnomedEclFromValueSet` of the source: empty or blank input
yields the empty result; otherwise the trimmed descriptor is offered to
the recognizer blocks in order. -/
def extractSnomedEclFromValueSet (valueSetString : String) :
    Except UriError String :=
  if trimString valueSetString = "" then .ok ""
  else runRecognizers recognizers (trimString valueSetString).data

/-- The evaluation rule asserted by the specification (for comparison
with the implemented one): skip past every recognizer whose result is
empty, not merely past recognizers that do not fire. -/
def firstNonEmptyResult : List (List Char → RecStep) → List Char →
    Except UriError String
  | [], _ => .ok ""
  | r :: rs, v =>
    match r v with
    | .error e => .error e
    | .ok (some s) => if s = "" then firstNonEmptyResult rs v else .ok s
    | .ok none => firstNonEmptyResult rs v

/-!  The Enterprise Architect tagged-value model used by
`convertSingleDataElement`: an element carries an ordered collection of
tagged values, each with a name, a value and a notes field; values longer
than 255 UTF-16 units are stored through the `"<memo>"` sentinel with the
text in the notes field. -/

/-- One EA tagged value. -/
structure EATag where
  name : String
  value : String
  notes : String
deriving Repr, DecidableEq

/-- An EA element, reduced to its tagged-value collection (the only part
the converter reads or writes). -/
structure EAElem where
  tags : List EATag
deriving Repr, DecidableEq

/-- `getTaggedValue` of the source: the first tag with the given name is
read; the `"<memo>"` sentinel redirects to the notes field; a missing tag
yields the empty string. -/
def getTaggedValue (element : EAElem) (tagName : String) : String :=
  match element.tags.find? (fun t => t.name == tagName) with
  | some t => if t.value = "<memo>" then t.notes else t.value
  | none => ""

/-- Payload update of an existing tag (the over-255 branch stores the
sentinel and the full text in the notes). -/
def setTagPayload (tagValue : String) (t : EATag) : EATag :=
  if 255 < utf16Length tagValue then
    { t with value := "<memo>", notes := tagValue }
  else { t with value := tagValue, notes := "" }

/-- Update the first tag with the given name. -/
def updateFirstTag (tagName tagValue : String) : List EATag → List EATag
  | [] => []
  | t :: ts =>
    if t.name == tagName then setTagPayload tagValue t :: ts
    else t :: updateFirstTag tagName tagValue ts

/-- A freshly created tag (`TaggedValues.AddNew` leaves the notes empty
in the short branch). -/
def newTag (tagName tagValue : String) : EATag :=
  if 255 < utf16Length tagValue then
    { name := tagName, value := "<memo>", notes := tagValue }
  else { name := tagName, value := tagValue, notes := "" }

/-- `addOrUpdateTaggedValue` of the source: update the first existing tag
of that name, or append a new one. -/
def addOrUpdateTaggedValue (element : EAElem) (tagName tagValue : String) :
    EAElem :=
  if element.tags.any (fun t => t.name == tagName) then
    { element with tags := updateFirstTag tagName tagValue element.tags }
  else { element with tags := element.tags ++ [newTag tagName tagValue] }

/-- The conversion statistics record of the source. -/
structure ConversionCounter where
  elementsProcessed : Nat
  conversionsPerformed : Nat
  existingEclSkipped : Nat
  nonSnomedSkipped : Nat
  errors : Nat
deriving Repr, DecidableEq

/-- The configuration record of the source. -/
structure ConversionConfig where
  skipExistingEcl : Bool
  debugMode : Bool
  logNonSnomedElements : Bool
deriving Repr, DecidableEq

/-- The COM layer under `TaggedValue.Update` can raise; the source's
`addOrUpdateTaggedValue` catches and rethrows such failures.  A write
oracle says, per element state and tag name, whether the write raises. -/
abbrev WriteOracle := EAElem → String → Bool

/-- A tagged-value write through the possibly-failing COM layer. -/
def addOrUpdateTaggedValueE (fail : WriteOracle) (element : EAElem)
    (tagName tagValue : String) : Except Unit EAElem :=
  if fail element tagName then .error ()
  else .ok (addOrUpdateTaggedValue element tagName tagValue)

/-- The `try` body of `convertSingleDataElement`.  The result carries the
element and counter state; an `.error` carries the state at the moment
the exception was raised (JScript mutations made before a throw persist).
`today` stands for the ambient `getCurrentDate()` clock reading. -/
def convertBody (cfg : ConversionConfig) (today : String)
    (fail : WriteOracle) (element : EAElem) (c : ConversionCounter) :
    Except (EAElem × ConversionCounter) (EAElem × ConversionCounter) :=
  let c1 := { c with elementsProcessed := c.elementsProcessed + 1 }
  let existingEcl := getTaggedValue element "snomedECL"
  if (existingEcl ≠ "" ∧ trimString existingEcl ≠ "") ∧ cfg.skipExistingEcl then
    .ok (element, { c1 with existingEclSkipped := c1.existingEclSkipped + 1 })
  else
    let valueSetString := getTaggedValue element "valueSets"
    if valueSetString = "" ∨ trimString valueSetString = "" then
      .ok (element, { c1 with nonSnomedSkipped := c1.nonSnomedSkipped + 1 })
    else
      match extractSnomedEclFromValueSet valueSetString with
      | .error _ => .error (element, c1)
      | .ok extractedEcl =>
        if extractedEcl ≠ "" ∧ trimString extractedEcl ≠ "" then
          match addOrUpdateTaggedValueE fail element "snomedECL" extractedEcl with
          | .error _ => .error (element, c1)
          | .ok e1 =>
            match addOrUpdateTaggedValueE fail e1 "eclSource"
                "Converted from valueSets" with
            | .error _ => .error (e1, c1)
            | .ok e2 =>
              match addOrUpdateTaggedValueE fail e2 "eclConversionDate" today with
              | .error _ => .error (e2, c1)
              | .ok e3 =>
                .ok (e3, { c1 with
                  conversionsPerformed := c1.conversionsPerformed + 1 })
        else
          .ok (element,
            { c1 with nonSnomedSkipped := c1.nonSnomedSkipped + 1 })

/-- `convertSingleDataElement` with an explicit write oracle: the
per-element `try`/`catch` of the source; a raised exception is caught
here and bumps the error counter. -/
def convertSingleDataElementE (cfg : ConversionConfig) (today : String)
    (fail : WriteOracle) (element : EAElem) (c : ConversionCounter) :
    EAElem × ConversionCounter :=
  match convertBody cfg today fail element c with
  | .ok r => r
  | .error (e2, c2) => (e2, { c2 with errors := c2.errors + 1 })

/-- The write oracle of a fault-free run. -/
def noFail : WriteOracle := fun _ _ => false

/-- `convertSingleDataElement` of the source on a fault-free COM layer. -/
def convertSingleDataElement (cfg : ConversionConfig) (today : String)
    (element : EAElem) (c : ConversionCounter) :
    EAElem × ConversionCounter :=
  convertSingleDataElementE cfg today noFail element c

/-- The element loop of `convertAllDataElementsInStandard` (and of
`convertAllDataElementsInModel`), iterating over the collected
data elements and threading the counter state. -/
def convertAllDataElementsInStandard (cfg : ConversionConfig) (today : String)
    (fail : WriteOracle) : List EAElem → ConversionCounter →
    List EAElem × ConversionCounter
  | [], c => ([], c)
  | e :: es, c =>
    let r := convertSingleDataElementE cfg today fail e c
    let rs := convertAllDataElementsInStandard cfg today fail es r.2
    (r.1 :: rs.1, rs.2)

/-!  Specification-side definitions (phrased from the specification's
words, for the refinement claims; these are compared with the
source-derived definitions above and are deliberately not reused by
them). -/

/-- Modelled from the spec: `isConceptId(token)` is true iff the token
matches `^\d{6,18}$`. -/
def isConceptId (token : String) : Bool :=
  token.data.all Char.isDigit && 6 ≤ token.data.length && token.data.length ≤ 18

/-- The capture that the source regexes' shared `(\d{6,18})` group takes
at the start of a token (greedy, backtracking). -/
def conceptIdCaptureAt (s : List Char) : Option (List Char) :=
  capBounded Char.isDigit 6 18 s (fun cap _ => some cap)

/-- Spec wording: the text contains an ECL operator token or a logical
keyword (case-insensitively). -/
def specHasOperatorOrKeyword (s : String) : Prop :=
  (∃ c ∈ s.data, c = '<' ∨ c = '>' ∨ c = '^') ∨
  List.IsInfix "and".data (s.data.map Char.toLower) ∨
  List.IsInfix "or".data (s.data.map Char.toLower) ∨
  List.IsInfix "minus".data (s.data.map Char.toLower)

/-- Spec wording: the text contains a 6-18-digit numeric run. -/
def specHasConceptIdRun (s : String) : Prop :=
  ∃ run : List Char, run <:+: s.data ∧ run.all Char.isDigit ∧
    6 ≤ run.length ∧ run.length ≤ 18

/-- Spec wording: the text contains an explicit logical-join pattern — a
whitespace-delimited logical keyword, or a constraint operator applied
(through optional whitespace) to a digit. -/
def specHasLogicalJoin (s : String) : Prop :=
  (∃ ws1 kw ws2, (ws1 ++ kw ++ ws2) <:+: s.data ∧
    ws1 ≠ [] ∧ ws1.all isJsSpace ∧ ws2 ≠ [] ∧ ws2.all isJsSpace ∧
    (kw.map Char.toLower = "or".data ∨ kw.map Char.toLower = "and".data ∨
     kw.map Char.toLower = "minus".data)) ∨
  (∃ opRun ws d, (opRun ++ ws ++ [d]) <:+: s.data ∧
    (opRun = ['<'] ∨ opRun = ['<', '<'] ∨ opRun = ['>'] ∨
     opRun = ['>', '>'] ∨ opRun = ['^']) ∧
    ws.all isJsSpace ∧ d.isDigit)

/-- The spec's validity gate, assembled from the spec-side predicates. -/
def isPlausibleComplexExpression (s : String) : Prop :=
  specHasOperatorOrKeyword s ∧ specHasConceptIdRun s ∧
    (specHasLogicalJoin s ∨ 20 < utf16Length s)

/-- A canonical default-form output of the engine: optional operator,
concept id, piped term. -/
def mkCanonicalOut (op : String) (ds : List Char) (term : String) : String :=
  (if op = "" then "" else op ++ " ") ++ String.mk ds ++ " |" ++ term ++ "|"

/-- Fuel-indexed check that a global replacement leaves a string
unchanged: every position either does not match or matches with a
replacement equal to the consumed text. -/
def selfRepCheck (mAt : List Char → Option (List Char × List Char)) :
    Nat → List Char → Bool
  | _, [] => true
  | 0, _ => false
  | fuel+1, c :: t =>
    match mAt (c :: t) with
    | none => selfRepCheck mAt fuel t
    | some (rep, rest) =>
      (rep ++ rest == c :: t) && selfRepCheck mAt fuel rest

/-- All canonicalizer stages leave the tail (the piped-term part of a
canonical output) unchanged, and the tail ends in a non-space
character. -/
def canonTailOk (T : List Char) : Bool :=
  selfRepCheck (kwJoinAt "or".data "OR".data) T.length T &&
  selfRepCheck (kwJoinAt "and".data "AND".data) T.length T &&
  selfRepCheck (kwJoinAt "minus".data "MINUS".data) T.length T &&
  selfRepCheck (opRunAt '<') T.length T &&
  selfRepCheck (opRunAt '>') T.length T &&
  selfRepCheck caretRunAt T.length T &&
  selfRepCheck tagMatchAt T.length T &&
  selfRepCheck wsRunAt T.length T &&
  (match T.getLast? with
   | some c => !isJsSpace c
   | none => false)

/-!  Theorems. -/

/-- Sequential evaluation returns the result of the first recognizer that
fires when all earlier recognizers fall through. -/
theorem runRecognizers_of_get (v : List Char) :
    ∀ (rs : List (List Char → RecStep)) (i : Nat) (hi : i < rs.length)
      (r : String),
      (∀ j (hj : j < i), rs.get ⟨j, Nat.lt_trans hj hi⟩ v = .ok none) →
      rs.get ⟨i, hi⟩ v = .ok (some r) →
      runRecognizers rs v = .ok r := by
  intro rs
  induction rs with
  | nil => intro i hi; exact absurd hi (by simp)
  | cons r0 rest ih =>
    intro i hi r hprev hfire
    cases i with
    | zero =>
      simp only [List.get] at hfire
      simp [runRecognizers, hfire]
    | succ j =>
      have h0 : r0 v = .ok none := hprev 0 (Nat.succ_pos j)
      simp only [List.get] at hfire
      simp only [runRecognizers, h0]
      exact ih j (Nat.lt_of_succ_lt_succ hi) r
        (fun k hk => hprev (k + 1) (Nat.succ_lt_succ hk)) hfire

/-- C1 (corrected, amended form): when every recognizer before the i-th
falls through (produces no result) on the trimmed descriptor and the i-th
fires with result `r`, `extractSnomedEclFromValueSet` returns exactly
`r`, and evaluation stops there — later recognizers cannot influence the
result.  (The claim's original wording, with "produces a non-empty
result" in place of "fires", is refuted by
`recognizer_priority_nonempty_cex`.) -/
theorem recognizer_priority_first_fired (s : String) (i : Nat) (r : String)
    (hne : trimString s ≠ "")
    (hi : i < recognizers.length)
    (hprev : ∀ j (hj : j < i),
      recognizers.get ⟨j, Nat.lt_trans hj hi⟩ (trimString s).data = .ok none)
    (hfire : recognizers.get ⟨i, hi⟩ (trimString s).data = .ok (some r)) :
    extractSnomedEclFromValueSet s = .ok r := by
  unfold extractSnomedEclFromValueSet
  rw [if_neg hne]
  exact runRecognizers_of_get _ recognizers i hi r hprev hfire

/-- Witness for `recognizer_priority_first_fired`: the dm+d recognizer
(index 2) fires on `"dm+d: 123456"` while the two recognizers before it
fall through. -/
theorem recognizer_priority_first_fired_witness :
    extractSnomedEclFromValueSet "dm+d: 123456" = .ok "< 123456 |dm+d concept|" := by
  refine recognizer_priority_first_fired "dm+d: 123456" 2 "< 123456 |dm+d concept|"
    (by decide) (by decide) ?_ (by rfl)
  intro j hj
  match j, hj with
  | 0, _ => exact rfl
  | 1, _ => exact rfl
  | n + 2, h => exact absurd h (by omega)

/-- C1, counterexample to the claim as stated: on
`"123456 snomed.info/sct?fhir_vs=ecl/%20"` the FHIR-ECL recognizer fires
with the empty result (the URL tail decodes to a blank expression) and
the engine stops there and returns `""`, although a later recognizer (the
standalone-concept fallback) would produce the non-empty result
`"< 123456 |SNOMED CT concept|"` — the first non-empty recognizer result,
which the claim says is returned. -/
theorem recognizer_priority_nonempty_cex :
    extractSnomedEclFromValueSet "123456 snomed.info/sct?fhir_vs=ecl/%20" = .ok "" ∧
    firstNonEmptyResult recognizers
      (trimString "123456 snomed.info/sct?fhir_vs=ecl/%20").data =
      .ok "< 123456 |SNOMED CT concept|" ∧
    (Except.ok "" : Except UriError String) ≠ .ok "< 123456 |SNOMED CT concept|" :=
  ⟨rfl, rfl, fun h => absurd (Except.ok.inj h) (by decide)⟩

/-- C2 (code bug): on the literal input documented in the source header,
the engine emits `"-< 71388002 |Procedure|"` — the stray hyphen after the
colon survives because the regex only allows a hyphen directly after the
colon — while the source's own header and the specification document the
output `"< 71388002 |Procedure|"`. -/
theorem extract_c2_literal :
    extractSnomedEclFromValueSet "SNOMED CT: - <71388002 |Procedure (procedure)|" =
      .ok "-< 71388002 |Procedure|" ∧
    (Except.ok "-< 71388002 |Procedure|" : Except UriError String) ≠
      .ok "< 71388002 |Procedure|" :=
  ⟨rfl, fun h => absurd (Except.ok.inj h) (by decide)⟩

/-- C3, counterexample: the canonicalizer is not idempotent — a piped
term carrying two parenthesised groups loses one group per application:
`"|a (b) (c)|"` maps to `"|a (b)|"` and then to `"|a|"`. -/
theorem clean_not_idempotent :
    cleanAndStandardizeEcl (cleanAndStandardizeEcl "|a (b) (c)|") ≠
      cleanAndStandardizeEcl "|a (b) (c)|" := by decide

/-- C5 (confirmed): when no recognizer before the FHIR-ECL-URL
recognizer fires, the descriptor matches the FHIR ECL value-set URL form
with tail `e`, and `e` URL-decodes to `d`, the engine returns `d` run
through the canonicalizer. -/
theorem fhir_ecl_url_recognizer (s : String) (e d : List Char)
    (hne : trimString s ≠ "")
    (hprev : ∀ j (hj : j < 9),
      recognizers.get ⟨j, Nat.lt_trans hj (by decide)⟩ (trimString s).data = .ok none)
    (hmatch : matchFhirEcl (trimString s).data = some e)
    (hdec : decodeURIComponentGo e = some d) :
    extractSnomedEclFromValueSet s = .ok (cleanAndStandardizeEcl (String.mk d)) := by
  refine recognizer_priority_first_fired s 9 _ hne (by decide) ?_ ?_
  · intro j hj
    exact hprev j hj
  · show recFhirEcl (trimString s).data = _
    unfold recFhirEcl
    rw [hmatch]
    show (match decodeURIComponentGo e with
      | some d => Except.ok (some (String.mk (cleanAndStandardizeEclL d)))
      | none => Except.error UriError.malformed) = _
    rw [hdec]
    rfl

/-- Witness for `fhir_ecl_url_recognizer` at a concrete FHIR ECL URL. -/
theorem fhir_ecl_url_recognizer_witness :
    extractSnomedEclFromValueSet "http://snomed.info/sct?fhir_vs=ecl/%3C404684003" =
      .ok "< 404684003" := by
  have h := fhir_ecl_url_recognizer "http://snomed.info/sct?fhir_vs=ecl/%3C404684003"
    "%3C404684003".data "<404684003".data (by decide) ?_ (by rfl) (by rfl)
  · exact h.trans (by rfl)
  · intro j hj
    match j, hj with
    | 0, _ => exact rfl
    | 1, _ => exact rfl
    | 2, _ => exact rfl
    | 3, _ => exact rfl
    | 4, _ => exact rfl
    | 5, _ => exact rfl
    | 6, _ => exact rfl
    | 7, _ => exact rfl
    | 8, _ => exact rfl
    | n + 9, hh => exact absurd hh (by omega)

/-- `setTagPayload` does not change the tag name. -/
theorem setTagPayload_name (v : String) (t : EATag) :
    (setTagPayload v t).name = t.name := by
  unfold setTagPayload
  split <;> rfl

/-- `newTag` carries the requested name. -/
theorem newTag_name (n v : String) : (newTag n v).name = n := by
  unfold newTag
  split <;> rfl

/-- Reading back the payload stored by `setTagPayload`/`newTag` recovers
the value, for every value other than the sentinel itself. -/
theorem readPayload_newTag (n v : String) (hv : v ≠ "<memo>") :
    (if (newTag n v).value = "<memo>" then (newTag n v).notes
     else (newTag n v).value) = v := by
  unfold newTag
  by_cases hlong : 255 < utf16Length v
  · simp [hlong]
  · simp only [hlong, if_false]
    rw [if_neg hv]

/-- As `readPayload_newTag`, for an updated existing tag. -/
theorem readPayload_setTagPayload (v : String) (t : EATag) (hv : v ≠ "<memo>") :
    (if (setTagPayload v t).value = "<memo>" then (setTagPayload v t).notes
     else (setTagPayload v t).value) = v := by
  unfold setTagPayload
  by_cases hlong : 255 < utf16Length v
  · simp [hlong]
  · simp only [hlong, if_false]
    rw [if_neg hv]

/-- Reading the name updated by `updateFirstTag` recovers the written
payload whenever some tag of that name exists. -/
theorem getTag_updateFirst (n v : String) (hv : v ≠ "<memo>") :
    ∀ ts : List EATag, ts.any (fun t => t.name == n) = true →
      (match (updateFirstTag n v ts).find? (fun t => t.name == n) with
       | some t => if t.value = "<memo>" then t.notes else t.value
       | none => "") = v := by
  intro ts
  induction ts with
  | nil => intro h; simp at h
  | cons t ts ih =>
    intro h
    by_cases ht : t.name == n
    · simp only [updateFirstTag, ht, if_true]
      have hname : ((setTagPayload v t).name == n) = true := by
        rw [setTagPayload_name]; exact ht
      simp only [List.find?, hname]
      exact readPayload_setTagPayload v t hv
    · simp only [updateFirstTag, ht, if_false]
      have hts : ts.any (fun t => t.name == n) = true := by
        simp only [List.any_cons, ht, Bool.false_or] at h
        exact h
      simp only [List.find?, ht]
      exact ih hts

/-- A tag appended to a list holding no tag of that name is the first
one found. -/
theorem find_append_new (n v : String) :
    ∀ ts : List EATag, ts.any (fun t => t.name == n) = false →
      (ts ++ [newTag n v]).find? (fun t => t.name == n) = some (newTag n v) := by
  intro ts
  induction ts with
  | nil =>
    intro _
    have hname : ((newTag n v).name == n) = true := by
      rw [newTag_name]; exact beq_self_eq_true n
    simp [List.find?, hname]
  | cons t ts ih =>
    intro h
    simp only [List.any_cons, Bool.or_eq_false_iff] at h
    simp only [List.cons_append, List.find?, h.1]
    exact ih h.2

/-- C10 (corrected, amended form): writing any tagged value other than
the literal sentinel string `"<memo>"` and reading it back returns the
same string — including values longer than 255 UTF-16 units, which are
stored through the `"<memo>"` sentinel with the text in the notes field.
(The unrestricted round trip of the original claim is refuted by
`tagged_value_roundtrip_memo_cex`.) -/
theorem tagged_value_roundtrip (e : EAElem) (n v : String) (hv : v ≠ "<memo>") :
    getTaggedValue (addOrUpdateTaggedValue e n v) n = v := by
  unfold addOrUpdateTaggedValue
  by_cases hany : e.tags.any (fun t => t.name == n) = true
  · rw [if_pos hany]
    unfold getTaggedValue
    exact getTag_updateFirst n v hv e.tags hany
  · rw [if_neg hany]
    unfold getTaggedValue
    have hfalse : e.tags.any (fun t => t.name == n) = false := by
      revert hany
      cases e.tags.any (fun t => t.name == n) <;> simp
    rw [find_append_new n v e.tags hfalse]
    exact readPayload_newTag n v hv

/-- Witness for `tagged_value_roundtrip` at a concrete long value. -/
theorem tagged_value_roundtrip_witness :
    getTaggedValue
      (addOrUpdateTaggedValue ⟨[]⟩ "snomedECL" (String.mk (List.replicate 300 'x')))
      "snomedECL" = String.mk (List.replicate 300 'x') :=
  tagged_value_roundtrip ⟨[]⟩ "snomedECL" (String.mk (List.replicate 300 'x'))
    (by decide)

/-- C10, counterexample to the unrestricted claim: the value `"<memo>"`
itself collides with the sentinel — it is stored as the sentinel with
empty notes and reads back as the empty string. -/
theorem tagged_value_roundtrip_memo_cex :
    getTaggedValue (addOrUpdateTaggedValue ⟨[]⟩ "snomedECL" "<memo>") "snomedECL" = "" ∧
    ("<memo>" : String) ≠ "" :=
  ⟨rfl, by decide⟩

/-- C7 (confirmed): with the skip policy active, an element whose
`snomedECL` is already non-blank is left untouched — no conversion, no
metadata write — and only the elements-processed and existing-skipped
counters step; running the engine again on the same element repeats
exactly that, so a second run makes zero additional writes. -/
theorem guard_skip_existing (cfg : ConversionConfig) (today : String)
    (element : EAElem) (c : ConversionCounter)
    (hskip : cfg.skipExistingEcl = true)
    (hecl : trimString (getTaggedValue element "snomedECL") ≠ "") :
    convertSingleDataElement cfg today element c =
      (element, { c with elementsProcessed := c.elementsProcessed + 1,
                         existingEclSkipped := c.existingEclSkipped + 1 }) ∧
    convertSingleDataElement cfg today element
        { c with elementsProcessed := c.elementsProcessed + 1,
                 existingEclSkipped := c.existingEclSkipped + 1 } =
      (element, { c with elementsProcessed := c.elementsProcessed + 1 + 1,
                         existingEclSkipped := c.existingEclSkipped + 1 + 1 }) := by
  have hne0 : getTaggedValue element "snomedECL" ≠ "" := by
    intro h
    exact hecl (by rw [h]; rfl)
  have hcond : (getTaggedValue element "snomedECL" ≠ "" ∧
      trimString (getTaggedValue element "snomedECL") ≠ "") ∧
      cfg.skipExistingEcl := ⟨⟨hne0, hecl⟩, hskip⟩
  constructor
  · unfold convertSingleDataElement convertSingleDataElementE convertBody
    rw [if_pos hcond]
  · unfold convertSingleDataElement convertSingleDataElementE convertBody
    rw [if_pos hcond]

/-- Witness for `guard_skip_existing` at a concrete element. -/
theorem guard_skip_existing_witness :
    convertSingleDataElement ⟨true, true, false⟩ "2024-12-19"
        ⟨[⟨"snomedECL", "< 123456 |X|", ""⟩]⟩ ⟨0, 0, 0, 0, 0⟩ =
      (⟨[⟨"snomedECL", "< 123456 |X|", ""⟩]⟩, ⟨1, 0, 1, 0, 0⟩) ∧
    convertSingleDataElement ⟨true, true, false⟩ "2024-12-19"
        ⟨[⟨"snomedECL", "< 123456 |X|", ""⟩]⟩ ⟨1, 0, 1, 0, 0⟩ =
      (⟨[⟨"snomedECL", "< 123456 |X|", ""⟩]⟩, ⟨2, 0, 2, 0, 0⟩) := by
  have h := guard_skip_existing ⟨true, true, false⟩ "2024-12-19"
    ⟨[⟨"snomedECL", "< 123456 |X|", ""⟩]⟩ ⟨0, 0, 0, 0, 0⟩ rfl (by decide)
  exact ⟨h.1, h.2⟩

/-- C8 (confirmed): an element with no pre-existing `snomedECL` whose
descriptor is blank or matches no recognizer is left untouched; only the
elements-processed and no-SNOMED-pattern counters step, and the error
counter does not move; moreover the engine's conversion of the empty
descriptor is the empty result. -/
theorem convert_no_snomed (cfg : ConversionConfig) (today : String)
    (element : EAElem) (c : ConversionCounter)
    (hecl : trimString (getTaggedValue element "snomedECL") = "")
    (hvs : trimString (getTaggedValue element "valueSets") = "" ∨
      extractSnomedEclFromValueSet (getTaggedValue element "valueSets") = .ok "") :
    convertSingleDataElement cfg today element c =
      (element, { c with elementsProcessed := c.elementsProcessed + 1,
                         nonSnomedSkipped := c.nonSnomedSkipped + 1 }) ∧
    extractSnomedEclFromValueSet "" = .ok "" := by
  refine ⟨?_, rfl⟩
  have hcond : ¬ ((getTaggedValue element "snomedECL" ≠ "" ∧
      trimString (getTaggedValue element "snomedECL") ≠ "") ∧
      cfg.skipExistingEcl) := by
    intro h
    exact h.1.2 hecl
  unfold convertSingleDataElement convertSingleDataElementE convertBody
  rw [if_neg hcond]
  by_cases hempty : getTaggedValue element "valueSets" = "" ∨
      trimString (getTaggedValue element "valueSets") = ""
  · rw [if_pos hempty]
  · rw [if_neg hempty]
    have hex : extractSnomedEclFromValueSet (getTaggedValue element "valueSets") =
        .ok "" := by
      cases hvs with
      | inl h => exact absurd (Or.inr h) hempty
      | inr h => exact h
    rw [hex]
    rfl

/-- Witness for `convert_no_snomed` at a concrete element with a
non-SNOMED descriptor. -/
theorem convert_no_snomed_witness :
    convertSingleDataElement ⟨true, true, false⟩ "2024-12-19"
        ⟨[⟨"valueSets", "Local procedure codes", ""⟩]⟩ ⟨0, 0, 0, 0, 0⟩ =
      (⟨[⟨"valueSets", "Local procedure codes", ""⟩]⟩, ⟨1, 0, 0, 1, 0⟩) ∧
    extractSnomedEclFromValueSet "" = .ok "" :=
  convert_no_snomed ⟨true, true, false⟩ "2024-12-19"
    ⟨[⟨"valueSets", "Local procedure codes", ""⟩]⟩ ⟨0, 0, 0, 0, 0⟩
    rfl (Or.inr rfl)

/-- C9 (confirmed): an exception raised while processing one element of a
batch is caught at the per-element level: the loop records the element
state at the throw point, increments the error counter by exactly one,
and continues with the remaining elements exactly as it would from that
state — no exception propagates out of the element loop. -/
theorem per_element_fault_containment (cfg : ConversionConfig) (today : String)
    (fail : WriteOracle) (e : EAElem) (es : List EAElem)
    (c : ConversionCounter) (st : EAElem × ConversionCounter)
    (h : convertBody cfg today fail e c = .error st) :
    convertAllDataElementsInStandard cfg today fail (e :: es) c =
      (st.1 :: (convertAllDataElementsInStandard cfg today fail es
          { st.2 with errors := st.2.errors + 1 }).1,
        (convertAllDataElementsInStandard cfg today fail es
          { st.2 with errors := st.2.errors + 1 }).2) := by
  show (let r := convertSingleDataElementE cfg today fail e c
        let rs := convertAllDataElementsInStandard cfg today fail es r.2
        (r.1 :: rs.1, rs.2)) = _
  have hr : convertSingleDataElementE cfg today fail e c =
      (st.1, { st.2 with errors := st.2.errors + 1 }) := by
    unfold convertSingleDataElementE
    rw [h]
  rw [hr]

/-- Witness for `per_element_fault_containment`: a write oracle that
fails the `snomedECL` write makes the first element error out, and the
loop still processes the second element. -/
theorem per_element_fault_containment_witness :
    convertAllDataElementsInStandard ⟨true, true, false⟩ "2024-12-19"
        (fun _ n => n == "snomedECL")
        [⟨[⟨"valueSets", "dm+d: 123456", ""⟩]⟩, ⟨[]⟩] ⟨0, 0, 0, 0, 0⟩ =
      ([⟨[⟨"valueSets", "dm+d: 123456", ""⟩]⟩, ⟨[]⟩], ⟨2, 0, 0, 1, 1⟩) := by
  have h := per_element_fault_containment ⟨true, true, false⟩ "2024-12-19"
    (fun _ n => n == "snomedECL") ⟨[⟨"valueSets", "dm+d: 123456", ""⟩]⟩ [⟨[]⟩]
    ⟨0, 0, 0, 0, 0⟩ (⟨[⟨"valueSets", "dm+d: 123456", ""⟩]⟩, ⟨1, 0, 0, 0, 0⟩) rfl
  rw [h]
  rfl

/-- The first, greedy attempt of a capturing quantifier succeeds outright
when the continuation accepts the full candidate capture. -/
theorem btGiveCap_first (low : Nat) (capRev rest : List Char)
    (k : List Char → List Char → Option γ) (g : γ)
    (h : k capRev.reverse rest = some g) :
    btGiveCap low capRev rest k = some g := by
  cases capRev with
  | nil => exact h
  | cons c cr => simp only [btGiveCap, h]

/-- The greedy `(\d{6,18})` capture at a position, in closed form: the
longest digit run up to eighteen characters, requiring at least six. -/
theorem conceptIdCaptureAt_eq (s : List Char) :
    conceptIdCaptureAt s =
      (if ((s.takeWhile Char.isDigit).take 18).length < 6 then none
       else some ((s.takeWhile Char.isDigit).take 18)) := by
  simp only [conceptIdCaptureAt, capBounded]
  split
  · rfl
  · exact btGiveCap_first _ _ _ _ _ (by rw [List.reverse_reverse])

/-- C6 (confirmed): the shared `(\d{6,18})` capture primitive of the
recognizers captures a whole token exactly when the token consists solely
of digits and has length between six and eighteen; in particular an
all-digit token of length five or nineteen is never captured whole as a
concept identifier. -/
theorem concept_id_token (token : String) :
    conceptIdCaptureAt token.data = some token.data ↔ isConceptId token = true := by
  rw [conceptIdCaptureAt_eq]
  constructor
  · intro h
    split at h
    · exact absurd h (by simp)
    · rename_i hlen
      have heq : (token.data.takeWhile Char.isDigit).take 18 = token.data :=
        Option.some.inj h
      have hall : ∀ c ∈ token.data, Char.isDigit c = true := by
        intro c hc
        rw [← heq] at hc
        exact List.mem_takeWhile_imp (List.take_subset 18 _ hc)
      have hle : token.data.length ≤ 18 := by
        rw [← heq]
        exact le_trans (List.length_take_le 18 _) (le_refl 18)
      have h6 : 6 ≤ token.data.length := by
        rw [← heq]
        omega
      simp only [isConceptId, Bool.and_eq_true, decide_eq_true_eq,
        List.all_eq_true]
      exact ⟨⟨hall, h6⟩, hle⟩
  · intro h
    simp only [isConceptId, Bool.and_eq_true, decide_eq_true_eq,
      List.all_eq_true] at h
    have htw : token.data.takeWhile Char.isDigit = token.data :=
      List.takeWhile_eq_self_iff.mpr h.1.1
    have htake : token.data.take 18 = token.data :=
      List.take_of_length_le h.2
    rw [htw, htake, if_neg (by omega)]

/-- Unanchored boolean search succeeds exactly when the per-position test
holds at some suffix. -/
theorem findSubB_iff (p : List Char → Bool) :
    ∀ l : List Char, findSubB p l = true ↔ ∃ i, p (l.drop i) = true := by
  intro l
  induction l with
  | nil =>
    constructor
    · intro h; exact ⟨0, h⟩
    · intro ⟨i, h⟩; simpa using h
  | cons c t ih =>
    simp only [findSubB, Bool.or_eq_true]
    constructor
    · intro h
      cases h with
      | inl h => exact ⟨0, h⟩
      | inr h =>
        obtain ⟨i, hi⟩ := ih.mp h
        exact ⟨i + 1, by simpa using hi⟩
    · intro ⟨i, hi⟩
      cases i with
      | zero => exact Or.inl hi
      | succ j => exact Or.inr (ih.mpr ⟨j, by simpa using hi⟩)

/-- `takeWhile` walks through a block of characters that all satisfy the
predicate. -/
theorem takeWhile_append_of_all (p : Char → Bool) (a b : List Char)
    (ha : ∀ c ∈ a, p c = true) :
    (a ++ b).takeWhile p = a ++ b.takeWhile p := by
  have h1 : a.takeWhile p = a := List.takeWhile_eq_self_iff.mpr ha
  rw [List.takeWhile_append, if_pos (by rw [h1])]

/-- `dropWhile` drops a block of characters that all satisfy the
predicate. -/
theorem dropWhile_append_of_all (p : Char → Bool) :
    ∀ a : List Char, (∀ c ∈ a, p c = true) →
      ∀ b, (a ++ b).dropWhile p = b.dropWhile p := by
  intro a
  induction a with
  | nil => intro _ b; rfl
  | cons c t ih =>
    intro h b
    have hc : p c = true := h c (List.mem_cons_self c t)
    simp only [List.cons_append, List.dropWhile, hc]
    exact ih (fun x hx => h x (List.mem_cons_of_mem c hx)) b

/-- Being an infix is having a fixed-length window at some offset. -/
theorem infix_iff_drop_take (w L : List Char) :
    w <:+: L ↔ ∃ i, (L.drop i).take w.length = w := by
  constructor
  · intro ⟨s, t, h⟩
    refine ⟨s.length, ?_⟩
    rw [← h, List.append_assoc, List.drop_left, List.take_left]
  · intro ⟨i, h⟩
    have h2 : w ++ (L.drop i).drop w.length = L.drop i := by
      conv_rhs => rw [← List.take_append_drop w.length (L.drop i)]
      rw [h]
    refine ⟨L.take i, (L.drop i).drop w.length, ?_⟩
    rw [List.append_assoc, h2, List.take_append_drop]

/-- Case-insensitive prefix test, as lower-cased window equality. -/
theorem ciStarts_iff (w : List Char) :
    ∀ u, ciStarts w u = true ↔
      (u.take w.length).map Char.toLower = w.map Char.toLower := by
  induction w with
  | nil => intro u; simp [ciStarts]
  | cons p ps ih =>
    intro u
    cases u with
    | nil => simp [ciStarts]
    | cons c cs =>
      simp only [ciStarts, Bool.and_eq_true, List.length_cons, List.take_succ_cons,
        List.map_cons, List.cons.injEq, ciChar, decide_eq_true_eq]
      constructor
      · intro ⟨h1, h2⟩
        exact ⟨h1.symm, (ih cs).mp h2⟩
      · intro ⟨h1, h2⟩
        exact ⟨h1.symm, (ih cs).mpr h2⟩

/-- A case-insensitive pattern occurs at some position exactly when its
lower-cased form is an infix of the lower-cased text. -/
theorem ciStarts_exists_iff_infix (w l : List Char) :
    (∃ i, ciStarts w (l.drop i) = true) ↔
      (w.map Char.toLower) <:+: (l.map Char.toLower) := by
  rw [infix_iff_drop_take]
  constructor
  · intro ⟨i, h⟩
    refine ⟨i, ?_⟩
    rw [ciStarts_iff] at h
    rw [← List.map_drop, ← List.map_take, List.length_map, h]
  · intro ⟨i, h⟩
    refine ⟨i, ?_⟩
    rw [ciStarts_iff]
    rw [← List.map_drop, ← List.map_take, List.length_map] at h
    exact h

/-- A one-character class occurs at some position exactly when some list
element satisfies it. -/
theorem classHeadB_exists (p : Char → Bool) (l : List Char) :
    (∃ i, classHeadB p (l.drop i) = true) ↔ ∃ c ∈ l, p c = true := by
  constructor
  · intro ⟨i, hi⟩
    cases hd : l.drop i with
    | nil => rw [hd] at hi; exact absurd hi (by simp [classHeadB])
    | cons c rest =>
      rw [hd] at hi
      refine ⟨c, ?_, hi⟩
      have : c ∈ l.drop i := by rw [hd]; exact List.mem_cons_self c rest
      exact List.drop_subset i l this
  · intro ⟨c, hc, hp⟩
    obtain ⟨n, hn⟩ := List.mem_iff_get.mp hc
    refine ⟨n.1, ?_⟩
    rw [← List.get_cons_drop l n, hn]
    exact hp

/-- The `hasEclOperators` test, in the specification's phrasing. -/
theorem hasEclOperators_iff (l : List Char) :
    hasEclOperators l = true ↔
      ((∃ c ∈ l, c = '<' ∨ c = '>' ∨ c = '^') ∨
       ("and".data <:+: l.map Char.toLower ∨
        "or".data <:+: l.map Char.toLower ∨
        "minus".data <:+: l.map Char.toLower)) := by
  unfold hasEclOperators
  rw [findSubB_iff]
  simp only [opOrKwAt, Bool.or_eq_true]
  rw [exists_or, exists_or, exists_or]
  rw [classHeadB_exists, ciStarts_exists_iff_infix, ciStarts_exists_iff_infix,
    ciStarts_exists_iff_infix]
  rw [show "AND".data.map Char.toLower = "and".data from by decide,
    show "OR".data.map Char.toLower = "or".data from by decide,
    show "MINUS".data.map Char.toLower = "minus".data from by decide]
  constructor
  · rintro (((h | h) | h) | h)
    · left
      obtain ⟨c, hc, hp⟩ := h
      exact ⟨c, hc, by simpa [or_assoc] using hp⟩
    · exact Or.inr (Or.inl h)
    · exact Or.inr (Or.inr (Or.inl h))
    · exact Or.inr (Or.inr (Or.inr h))
  · rintro (h | (h | h | h))
    · left; left; left
      obtain ⟨c, hc, hp⟩ := h
      refine ⟨c, hc, ?_⟩
      simp only [Bool.or_eq_true, decide_eq_true_eq, or_assoc]
      exact hp
    · exact Or.inl (Or.inl (Or.inr h))
    · exact Or.inl (Or.inr h)
    · exact Or.inr h

/-- The `hasConceptIds` test, in the specification's phrasing. -/
theorem hasConceptIds_iff (l : List Char) :
    hasConceptIds l = true ↔
      (∃ run : List Char, run <:+: l ∧ run.all Char.isDigit = true ∧
        6 ≤ run.length ∧ run.length ≤ 18) := by
  unfold hasConceptIds
  rw [findSubB_iff]
  constructor
  · intro ⟨i, hi⟩
    simp only [d618PrefixAt, decide_eq_true_eq] at hi
    have hlen : (((l.drop i).takeWhile Char.isDigit).take 6).length = 6 := by
      rw [List.length_take]
      omega
    have htake : (l.drop i).take 6 = ((l.drop i).takeWhile Char.isDigit).take 6 := by
      conv_lhs => rw [← List.takeWhile_append_dropWhile
        (p := Char.isDigit) (l := l.drop i)]
      exact List.take_append_of_le_length hi
    refine ⟨((l.drop i).takeWhile Char.isDigit).take 6, ?_, ?_, ?_, ?_⟩
    · rw [infix_iff_drop_take]
      exact ⟨i, by rw [hlen, htake]⟩
    · refine List.all_eq_true.mpr ?_
      intro c hc
      exact List.mem_takeWhile_imp (List.take_subset 6 _ hc)
    · rw [hlen]
    · rw [hlen]
      omega
  · intro ⟨run, hinf, hdig, h6, h18⟩
    obtain ⟨i, htk⟩ := (infix_iff_drop_take run l).mp hinf
    have hu : l.drop i = run ++ (l.drop i).drop run.length := by
      conv_lhs => rw [← List.take_append_drop run.length (l.drop i)]
      rw [htk]
    refine ⟨i, ?_⟩
    simp only [d618PrefixAt, decide_eq_true_eq]
    rw [hu, takeWhile_append_of_all _ _ _ (List.all_eq_true.mp hdig),
      List.length_append]
    omega

/-- Every JavaScript whitespace character has one of the listed code
points. -/
theorem isJsSpace_toNat (c : Char) (h : isJsSpace c = true) :
    c.toNat = 32 ∨ c.toNat = 9 ∨ c.toNat = 11 ∨ c.toNat = 12 ∨ c.toNat = 10 ∨
    c.toNat = 13 ∨ c.toNat = 160 ∨ c.toNat = 5760 ∨
    (8192 ≤ c.toNat ∧ c.toNat ≤ 8202) ∨ c.toNat = 8232 ∨ c.toNat = 8233 ∨
    c.toNat = 8239 ∨ c.toNat = 8287 ∨ c.toNat = 12288 ∨ c.toNat = 65279 := by
  simp only [isJsSpace, Bool.or_eq_true, Bool.and_eq_true, decide_eq_true_eq] at h
  rcases h with ((((((((((((((h | h) | h) | h) | h) | h) | h) | h) | h) | h) | h) |
      h) | h) | h) | h)
  · exact Or.inl (by rw [h]; rfl)
  · exact Or.inr (Or.inl (by rw [h]; rfl))
  · refine Or.inr (Or.inr (Or.inl ?_))
    show c.val.toNat = 11
    rw [h]
    rfl
  · refine Or.inr (Or.inr (Or.inr (Or.inl ?_)))
    show c.val.toNat = 12
    rw [h]
    rfl
  · exact Or.inr (Or.inr (Or.inr (Or.inr (Or.inl (by rw [h]; rfl)))))
  · exact Or.inr (Or.inr (Or.inr (Or.inr (Or.inr (Or.inl (by rw [h]; rfl))))))
  · refine Or.inr (Or.inr (Or.inr (Or.inr (Or.inr (Or.inr (Or.inl ?_))))))
    show c.val.toNat = 160
    rw [h]
    rfl
  · refine Or.inr (Or.inr (Or.inr (Or.inr (Or.inr (Or.inr (Or.inr (Or.inl ?_)))))))
    show c.val.toNat = 5760
    rw [h]
    rfl
  · refine Or.inr (Or.inr (Or.inr (Or.inr (Or.inr (Or.inr (Or.inr (Or.inr
      (Or.inl ⟨?_, ?_⟩))))))))
    · exact h.1
    · exact h.2
  · refine Or.inr (Or.inr (Or.inr (Or.inr (Or.inr (Or.inr (Or.inr (Or.inr
      (Or.inr (Or.inl ?_)))))))))
    show c.val.toNat = 8232
    rw [h]
    rfl
  · refine Or.inr (Or.inr (Or.inr (Or.inr (Or.inr (Or.inr (Or.inr (Or.inr
      (Or.inr (Or.inr (Or.inl ?_))))))))))
    show c.val.toNat = 8233
    rw [h]
    rfl
  · refine Or.inr (Or.inr (Or.inr (Or.inr (Or.inr (Or.inr (Or.inr (Or.inr
      (Or.inr (Or.inr (Or.inr (Or.inl ?_)))))))))))
    show c.val.toNat = 8239
    rw [h]
    rfl
  · refine Or.inr (Or.inr (Or.inr (Or.inr (Or.inr (Or.inr (Or.inr (Or.inr
      (Or.inr (Or.inr (Or.inr (Or.inr (Or.inl ?_))))))))))))
    show c.val.toNat = 8287
    rw [h]
    rfl
  · refine Or.inr (Or.inr (Or.inr (Or.inr (Or.inr (Or.inr (Or.inr (Or.inr
      (Or.inr (Or.inr (Or.inr (Or.inr (Or.inr (Or.inl ?_)))))))))))))
    show c.val.toNat = 12288
    rw [h]
    rfl
  · refine Or.inr (Or.inr (Or.inr (Or.inr (Or.inr (Or.inr (Or.inr (Or.inr
      (Or.inr (Or.inr (Or.inr (Or.inr (Or.inr (Or.inr ?_)))))))))))))
    show c.val.toNat = 65279
    rw [h]
    rfl

/-- Characters with code points in the printable band 33-159 are never
JavaScript whitespace. -/
theorem isJsSpace_eq_false_of_band (c : Char) (hlo : 33 ≤ c.toNat)
    (hhi : c.toNat ≤ 159) : isJsSpace c = false := by
  cases hsp : isJsSpace c with
  | false => rfl
  | true =>
    have := isJsSpace_toNat c hsp
    omega

/-- A digit is never JavaScript whitespace. -/
theorem isJsSpace_eq_false_of_digit (c : Char) (h : c.isDigit = true) :
    isJsSpace c = false := by
  simp only [Char.isDigit, Bool.and_eq_true, decide_eq_true_eq] at h
  have h1 : 48 ≤ c.toNat := h.1
  have h2 : c.toNat ≤ 57 := h.2
  exact isJsSpace_eq_false_of_band c (by omega) (by omega)

/-- `toLower` either fixes a character or the character is an ASCII
capital letter. -/
theorem toLower_eq_elim (c d : Char) (h : c.toLower = d) :
    c = d ∨ (65 ≤ c.toNat ∧ c.toNat ≤ 90) := by
  unfold Char.toLower at h
  simp only at h
  by_cases hr : c.toNat ≥ 65 ∧ c.toNat ≤ 90
  · exact Or.inr hr
  · rw [if_neg hr] at h
    exact Or.inl h

/-- A character that lower-cases to a non-whitespace character is itself
not whitespace. -/
theorem not_space_of_toLower (c d : Char) (hd : isJsSpace d = false)
    (h : c.toLower = d) : isJsSpace c = false := by
  rcases toLower_eq_elim c d h with h1 | h2
  · rw [h1]
    exact hd
  · exact isJsSpace_eq_false_of_band c (by omega) (by omega)

/-- Dropping the length of the `takeWhile` prefix is `dropWhile`. -/
theorem drop_length_takeWhile (p : Char → Bool) :
    ∀ u : List Char, u.drop (u.takeWhile p).length = u.dropWhile p := by
  intro u
  induction u with
  | nil => rfl
  | cons c t ih =>
    by_cases hc : p c
    · simp [List.takeWhile_cons, hc, List.dropWhile_cons, ih]
    · simp [List.takeWhile_cons, List.dropWhile_cons, hc]

/-- A whitespace-delimited keyword match at a position yields the
specification's decomposition. -/
theorem kwTail_decompose (l : List Char) (i : Nat) (w : List Char)
    (hws1 : ((l.drop i).takeWhile isJsSpace).isEmpty = false)
    (hkt : kwTail w
      ((l.drop i).drop ((l.drop i).takeWhile isJsSpace).length) = true) :
    ∃ ws1 kw ws2, (ws1 ++ kw ++ ws2) <:+: l ∧
      ws1 ≠ [] ∧ ws1.all isJsSpace = true ∧ ws2 ≠ [] ∧ ws2.all isJsSpace = true ∧
      kw.map Char.toLower = w.map Char.toLower := by
  simp only [kwTail, Bool.and_eq_true, Bool.not_eq_true'] at hkt
  obtain ⟨hcs, hws2⟩ := hkt
  set u := l.drop i with hu
  set r1 := u.drop (u.takeWhile isJsSpace).length with hr1
  refine ⟨u.takeWhile isJsSpace, r1.take w.length,
    (r1.drop w.length).takeWhile isJsSpace, ?_, ?_, ?_, ?_, ?_, ?_⟩
  · refine ⟨l.take i, (r1.drop w.length).dropWhile isJsSpace, ?_⟩
    simp only [List.append_assoc]
    rw [List.takeWhile_append_dropWhile, List.take_append_drop]
    rw [hr1, drop_length_takeWhile, List.takeWhile_append_dropWhile]
    rw [hu, List.take_append_drop]
  · intro hh
    rw [hh] at hws1
    exact absurd hws1 (by simp)
  · exact List.all_eq_true.mpr (fun c hc => List.mem_takeWhile_imp hc)
  · intro hh
    rw [hh] at hws2
    exact absurd hws2 (by simp)
  · exact List.all_eq_true.mpr (fun c hc => List.mem_takeWhile_imp hc)
  · exact (ciStarts_iff w r1).mp hcs

/-- The converse assembly: a whitespace-delimited keyword occurrence in
the text makes the scanner fire at its offset. -/
theorem kwTail_assemble (l s t ws1 kw ws2 w : List Char)
    (hl : s ++ (ws1 ++ kw ++ ws2) ++ t = l)
    (hws1ne : ws1 ≠ []) (hws1 : ws1.all isJsSpace = true)
    (hws2ne : ws2 ≠ []) (hws2 : ws2.all isJsSpace = true)
    (hkw : kw.map Char.toLower = w.map Char.toLower)
    (hkwsp : kw.takeWhile isJsSpace = []) (hkwne : kw ≠ []) :
    ((l.drop s.length).takeWhile isJsSpace).isEmpty = false ∧
    kwTail w ((l.drop s.length).drop
      ((l.drop s.length).takeWhile isJsSpace).length) = true := by
  obtain ⟨c, kt, hkweq⟩ : ∃ c kt, kw = c :: kt := by
    cases kw with
    | nil => exact absurd rfl hkwne
    | cons c kt => exact ⟨c, kt, rfl⟩
  have hc : isJsSpace c = false := by
    rw [hkweq] at hkwsp
    cases hsp : isJsSpace c with
    | false => rfl
    | true => rw [List.takeWhile_cons, if_pos hsp] at hkwsp; exact absurd hkwsp (by simp)
  have hu : l.drop s.length = ws1 ++ (kw ++ (ws2 ++ t)) := by
    rw [← hl]
    simp only [List.append_assoc]
    rw [List.drop_left]
  have htw : (l.drop s.length).takeWhile isJsSpace = ws1 := by
    rw [hu, takeWhile_append_of_all _ _ _ (List.all_eq_true.mp hws1), hkweq]
    simp only [List.cons_append, List.takeWhile_cons, hc, if_false,
      Bool.false_eq_true, List.append_nil]
  have hlen : kw.length = w.length := by
    have := congrArg List.length hkw
    simpa using this
  have hr1 : (l.drop s.length).drop
      ((l.drop s.length).takeWhile isJsSpace).length = kw ++ (ws2 ++ t) := by
    rw [htw, hu, List.drop_left]
  constructor
  · rw [htw]
    cases ws1 with
    | nil => exact absurd rfl hws1ne
    | cons a as => rfl
  · rw [hr1]
    simp only [kwTail, Bool.and_eq_true, Bool.not_eq_true']
    constructor
    · rw [ciStarts_iff]
      rw [← hlen, List.take_left, hkw]
    · rw [← hlen, List.drop_left]
      obtain ⟨b, bs, hws2eq⟩ : ∃ b bs, ws2 = b :: bs := by
        cases ws2 with
        | nil => exact absurd rfl hws2ne
        | cons b bs => exact ⟨b, bs, rfl⟩
      have hb : isJsSpace b = true := by
        have := List.all_eq_true.mp hws2
        exact this b (by rw [hws2eq]; exact List.mem_cons_self b bs)
      rw [hws2eq]
      simp [List.takeWhile_cons, hb]

/-- A decomposition observed at an offset yields an infix. -/
theorem infix_of_drop_decomp (l : List Char) (i : Nat) (mid rest : List Char)
    (h : l.drop i = mid ++ rest) : mid <:+: l := by
  refine ⟨l.take i, rest, ?_⟩
  rw [List.append_assoc, ← h, List.take_append_drop]

/-- A successful `\s*\d` tail decomposes into spaces and a digit. -/
theorem opDigitTail_decompose (x : List Char) (h : opDigitTail x = true) :
    ∃ ws d rest, x = ws ++ d :: rest ∧ ws.all isJsSpace = true ∧
      d.isDigit = true := by
  unfold opDigitTail at h
  cases hd : x.dropWhile isJsSpace with
  | nil => rw [hd] at h; exact absurd h (by simp)
  | cons d rest =>
    rw [hd] at h
    refine ⟨x.takeWhile isJsSpace, d, rest, ?_, ?_, h⟩
    · conv_lhs => rw [← List.takeWhile_append_dropWhile (p := isJsSpace) (l := x)]
      rw [hd]
    · exact List.all_eq_true.mpr (fun c hc => List.mem_takeWhile_imp hc)

/-- Spaces followed by a digit satisfy the `\s*\d` tail. -/
theorem opDigitTail_assemble (ws : List Char) (d : Char) (rest : List Char)
    (hws : ws.all isJsSpace = true) (hd : d.isDigit = true) :
    opDigitTail (ws ++ d :: rest) = true := by
  unfold opDigitTail
  rw [dropWhile_append_of_all _ ws (List.all_eq_true.mp hws) (d :: rest)]
  rw [List.dropWhile_cons, if_neg (by simp [isJsSpace_eq_false_of_digit d hd])]
  exact hd

/-- A one-character operator run applied through spaces to a digit fires
the scanner. -/
theorem opsTail_fire (op : Char) (ws : List Char) (d : Char) (t : List Char)
    (hopsp : isJsSpace op = false) (hopd : op.isDigit = false)
    (hws : ws.all isJsSpace = true) (hd : d.isDigit = true) :
    opsTail op (ws ++ d :: t) = true := by
  cases ws with
  | nil =>
    show opsTail op (d :: t) = true
    simp only [opsTail]
    have hne : ¬ (d = op) := by
      intro hh
      rw [hh, hopd] at hd
      exact absurd hd (by simp)
    rw [if_neg hne]
    exact opDigitTail_assemble [] d t (by simp) hd
  | cons w0 ws2 =>
    show opsTail op (w0 :: (ws2 ++ d :: t)) = true
    simp only [opsTail]
    have hw0 : isJsSpace w0 = true :=
      List.all_eq_true.mp hws w0 (List.mem_cons_self _ _)
    have hne : ¬ (w0 = op) := by
      intro hh
      rw [hh, hopsp] at hw0
      exact absurd hw0 (by simp)
    rw [if_neg hne]
    exact opDigitTail_assemble (w0 :: ws2) d t hws hd

/-- A two-character operator run applied through spaces to a digit fires
the scanner. -/
theorem opsTail_fire2 (op : Char) (ws : List Char) (d : Char) (t : List Char)
    (hws : ws.all isJsSpace = true) (hd : d.isDigit = true) :
    opsTail op (op :: (ws ++ d :: t)) = true := by
  simp only [opsTail, if_true]
  rw [opDigitTail_assemble ws d t hws hd]
  rfl

/-- The operator-applied-to-digit half of `hasLogicalStructure`, in the
specification's phrasing. -/
theorem opDigit_exists_iff (l : List Char) :
    findSubB opDigitAt l = true ↔
      (∃ opRun ws d, (opRun ++ ws ++ [d]) <:+: l ∧
        (opRun = ['<'] ∨ opRun = ['<', '<'] ∨ opRun = ['>'] ∨
         opRun = ['>', '>'] ∨ opRun = ['^']) ∧
        ws.all isJsSpace = true ∧ d.isDigit = true) := by
  rw [findSubB_iff]
  constructor
  · intro ⟨i, hi⟩
    cases hu : l.drop i with
    | nil => rw [hu] at hi; exact absurd hi (by simp [opDigitAt])
    | cons c t =>
      rw [hu] at hi
      simp only [opDigitAt] at hi
      by_cases hc1 : c = '<'
      · subst hc1
        rw [if_pos rfl] at hi
        cases t with
        | nil => exact absurd hi (by simp [opsTail])
        | cons c2 t2 =>
          simp only [opsTail] at hi
          by_cases hc2 : c2 = '<'
          · subst hc2
            rw [if_pos rfl] at hi
            simp only [Bool.or_eq_true] at hi
            cases hi with
            | inl h2 =>
              obtain ⟨ws, d, rest, hdec, hwsall, hdd⟩ := opDigitTail_decompose t2 h2
              refine ⟨['<', '<'], ws, d, ?_, Or.inr (Or.inl rfl), hwsall, hdd⟩
              apply infix_of_drop_decomp l i _ rest
              rw [hu, hdec]
              simp [List.append_assoc]
            | inr h2 =>
              have hfalse : opDigitTail ('<' :: t2) = false := by
                unfold opDigitTail
                rw [List.dropWhile_cons, if_neg (by decide)]
                show Char.isDigit '<' = false
                decide
              rw [hfalse] at h2
              exact absurd h2 (by simp)
          · rw [if_neg hc2] at hi
            obtain ⟨ws, d, rest, hdec, hwsall, hdd⟩ :=
              opDigitTail_decompose (c2 :: t2) hi
            refine ⟨['<'], ws, d, ?_, Or.inl rfl, hwsall, hdd⟩
            apply infix_of_drop_decomp l i _ rest
            rw [hu, hdec]
            simp [List.append_assoc]
      · rw [if_neg hc1] at hi
        by_cases hcg : c = '>'
        · subst hcg
          rw [if_pos rfl] at hi
          cases t with
          | nil => exact absurd hi (by simp [opsTail])
          | cons c2 t2 =>
            simp only [opsTail] at hi
            by_cases hc2 : c2 = '>'
            · subst hc2
              rw [if_pos rfl] at hi
              simp only [Bool.or_eq_true] at hi
              cases hi with
              | inl h2 =>
                obtain ⟨ws, d, rest, hdec, hwsall, hdd⟩ := opDigitTail_decompose t2 h2
                refine ⟨['>', '>'], ws, d, ?_,
                  Or.inr (Or.inr (Or.inr (Or.inl rfl))), hwsall, hdd⟩
                apply infix_of_drop_decomp l i _ rest
                rw [hu, hdec]
                simp [List.append_assoc]
              | inr h2 =>
                have hfalse : opDigitTail ('>' :: t2) = false := by
                  unfold opDigitTail
                  rw [List.dropWhile_cons, if_neg (by decide)]
                  show Char.isDigit '>' = false
                  decide
                rw [hfalse] at h2
                exact absurd h2 (by simp)
            · rw [if_neg hc2] at hi
              obtain ⟨ws, d, rest, hdec, hwsall, hdd⟩ :=
                opDigitTail_decompose (c2 :: t2) hi
              refine ⟨['>'], ws, d, ?_, Or.inr (Or.inr (Or.inl rfl)), hwsall, hdd⟩
              apply infix_of_drop_decomp l i _ rest
              rw [hu, hdec]
              simp [List.append_assoc]
        · rw [if_neg hcg] at hi
          by_cases hcc : c = '^'
          · subst hcc
            rw [if_pos rfl] at hi
            obtain ⟨ws, d, rest, hdec, hwsall, hdd⟩ := opDigitTail_decompose t hi
            refine ⟨['^'], ws, d, ?_, Or.inr (Or.inr (Or.inr (Or.inr rfl))),
              hwsall, hdd⟩
            apply infix_of_drop_decomp l i _ rest
            rw [hu, hdec]
            simp [List.append_assoc]
          · rw [if_neg hcc] at hi
            exact absurd hi (by simp)
  · intro ⟨opRun, ws, d, hinf, hop, hws, hd⟩
    obtain ⟨s, t, hl⟩ := hinf
    have hu : l.drop s.length = opRun ++ (ws ++ (d :: t)) := by
      rw [← hl]
      simp only [List.append_assoc, List.singleton_append]
      rw [List.drop_left]
    refine ⟨s.length, ?_⟩
    rcases hop with h | h | h | h | h <;> subst h <;> rw [hu]
    · show opsTail '<' (ws ++ d :: t) = true
      exact opsTail_fire '<' ws d t (by decide) (by decide) hws hd
    · show opsTail '<' ('<' :: (ws ++ d :: t)) = true
      exact opsTail_fire2 '<' ws d t hws hd
    · show opsTail '>' (ws ++ d :: t) = true
      exact opsTail_fire '>' ws d t (by decide) (by decide) hws hd
    · show opsTail '>' ('>' :: (ws ++ d :: t)) = true
      exact opsTail_fire2 '>' ws d t hws hd
    · show opDigitTail (ws ++ d :: t) = true
      exact opDigitTail_assemble ws d t hws hd

/-- A keyword occurrence (known by its lower-cased form) is nonempty and
does not begin with whitespace. -/
theorem kw_shape (kw : List Char) (d : Char) (wt : List Char)
    (hkw : kw.map Char.toLower = d :: wt) (hd : isJsSpace d = false) :
    kw ≠ [] ∧ kw.takeWhile isJsSpace = [] := by
  cases kw with
  | nil => exact absurd hkw (by simp)
  | cons c kt =>
    rw [List.map_cons] at hkw
    have hc : c.toLower = d := (List.cons.injEq _ _ _ _ ▸ hkw).1
    have hnsp : isJsSpace c = false := not_space_of_toLower c d hd hc
    refine ⟨by simp, ?_⟩
    rw [List.takeWhile_cons, if_neg (by simp [hnsp])]

/-- The whitespace-delimited-keyword half of `hasLogicalStructure`, in
the specification's phrasing. -/
theorem kwJoin_exists_iff (l : List Char) :
    findSubB kwJoinTestAt l = true ↔
      (∃ ws1 kw ws2, (ws1 ++ kw ++ ws2) <:+: l ∧
        ws1 ≠ [] ∧ ws1.all isJsSpace = true ∧ ws2 ≠ [] ∧
        ws2.all isJsSpace = true ∧
        (kw.map Char.toLower = "or".data ∨ kw.map Char.toLower = "and".data ∨
         kw.map Char.toLower = "minus".data)) := by
  rw [findSubB_iff]
  constructor
  · intro ⟨i, hi⟩
    simp only [kwJoinTestAt, Bool.and_eq_true, Bool.or_eq_true,
      Bool.not_eq_true'] at hi
    obtain ⟨hws1, hkts⟩ := hi
    rcases hkts with (hkt | hkt) | hkt
    · obtain ⟨ws1, kw, ws2, h1, h2, h3, h4, h5, h6⟩ :=
        kwTail_decompose l i "or".data hws1 hkt
      exact ⟨ws1, kw, ws2, h1, h2, h3, h4, h5, Or.inl (h6.trans (by decide))⟩
    · obtain ⟨ws1, kw, ws2, h1, h2, h3, h4, h5, h6⟩ :=
        kwTail_decompose l i "and".data hws1 hkt
      exact ⟨ws1, kw, ws2, h1, h2, h3, h4, h5,
        Or.inr (Or.inl (h6.trans (by decide)))⟩
    · obtain ⟨ws1, kw, ws2, h1, h2, h3, h4, h5, h6⟩ :=
        kwTail_decompose l i "minus".data hws1 hkt
      exact ⟨ws1, kw, ws2, h1, h2, h3, h4, h5,
        Or.inr (Or.inr (h6.trans (by decide)))⟩
  · intro ⟨ws1, kw, ws2, hinf, h2, h3, h4, h5, hkw⟩
    obtain ⟨s, t, hl⟩ := hinf
    refine ⟨s.length, ?_⟩
    simp only [kwJoinTestAt, Bool.and_eq_true, Bool.or_eq_true,
      Bool.not_eq_true']
    rcases hkw with hkw | hkw | hkw
    · obtain ⟨hne, hsp⟩ := kw_shape kw 'o' "r".data hkw (by decide)
      have ha := kwTail_assemble l s t ws1 kw ws2 "or".data hl h2 h3 h4 h5
        (hkw.trans (by decide)) hsp hne
      exact ⟨ha.1, Or.inl (Or.inl ha.2)⟩
    · obtain ⟨hne, hsp⟩ := kw_shape kw 'a' "nd".data hkw (by decide)
      have ha := kwTail_assemble l s t ws1 kw ws2 "and".data hl h2 h3 h4 h5
        (hkw.trans (by decide)) hsp hne
      exact ⟨ha.1, Or.inl (Or.inr ha.2)⟩
    · obtain ⟨hne, hsp⟩ := kw_shape kw 'm' "inus".data hkw (by decide)
      have ha := kwTail_assemble l s t ws1 kw ws2 "minus".data hl h2 h3 h4 h5
        (hkw.trans (by decide)) hsp hne
      exact ⟨ha.1, Or.inr ha.2⟩

/-- C4 (confirmed): the validity gate `isValidEclExpression` holds
exactly when the text contains an ECL operator token or logical keyword,
and a 6-18-digit numeric run, and either an explicit logical-join pattern
or more than twenty UTF-16 units of text — the specification's
`isPlausibleComplexExpression`. -/
theorem validity_gate_spec (s : String) :
    isValidEclExpression s = true ↔ isPlausibleComplexExpression s := by
  have h1 := hasEclOperators_iff s.data
  have h2 := hasConceptIds_iff s.data
  have h3 := kwJoin_exists_iff s.data
  have h4 := opDigit_exists_iff s.data
  unfold isValidEclExpression isValidEclExpressionL hasLogicalStructure
    isPlausibleComplexExpression specHasOperatorOrKeyword specHasConceptIdRun
    specHasLogicalJoin utf16Length utf16LengthL
  simp only [Bool.and_eq_true, Bool.or_eq_true, decide_eq_true_eq]
  constructor
  · intro ⟨⟨ha, hb⟩, hc⟩
    refine ⟨h1.mp ha, h2.mp hb, ?_⟩
    rcases hc with (hc | hc) | hc
    · exact Or.inl (Or.inl (h3.mp hc))
    · exact Or.inl (Or.inr (h4.mp hc))
    · exact Or.inr hc
  · intro ⟨ha, hb, hc⟩
    refine ⟨⟨h1.mpr ha, h2.mpr hb⟩, ?_⟩
    rcases hc with (hc | hc) | hc
    · exact Or.inl (Or.inl (h3.mpr hc))
    · exact Or.inl (Or.inr (h4.mpr hc))
    · exact Or.inr hc

/-!  Identity of the canonicalizer on its own canonical outputs
(supporting the corrected idempotence claim).  The machinery below shows
that each global-replacement stage leaves a canonical output
`[op ] digits |term|` unchanged: the digit run never starts a match, the
single separating space either starts no match or matches replacing
itself, and the concrete piped-term tail is checked position by position
by the decidable `selfRepCheck`. -/

/-- `replaceG` on the empty list is the empty list at any fuel. -/
theorem replaceG_nil_fuel (mAt : List Char → Option (List Char × List Char))
    (fuel : Nat) : replaceG mAt fuel [] = [] := by
  cases fuel <;> rfl

/-- A non-matching position contributes its character unchanged. -/
theorem replaceG_cons_none (mAt : List Char → Option (List Char × List Char))
    (c : Char) (t : List Char) (fuel : Nat) (h : mAt (c :: t) = none) :
    replaceG mAt (fuel + 1) (c :: t) = c :: replaceG mAt fuel t := by
  simp [replaceG, h]

/-- A matching position contributes the replacement and continues after
the consumed text. -/
theorem replaceG_cons_some (mAt : List Char → Option (List Char × List Char))
    (c : Char) (t : List Char) (rep rest : List Char) (fuel : Nat)
    (h : mAt (c :: t) = some (rep, rest)) :
    replaceG mAt (fuel + 1) (c :: t) = rep ++ replaceG mAt fuel rest := by
  simp [replaceG, h]

/-- A block of characters none of which starts a match passes through a
global replacement unchanged. -/
theorem replaceG_chain (mAt : List Char → Option (List Char × List Char))
    (blk : List Char)
    (hnone : ∀ c ∈ blk, ∀ rest, mAt (c :: rest) = none) :
    ∀ (fuel : Nat) (tail : List Char),
      replaceG mAt (blk.length + fuel) (blk ++ tail) =
        blk ++ replaceG mAt fuel tail := by
  induction blk with
  | nil => intro fuel tail; simp
  | cons c bt ih =>
    intro fuel tail
    have he : (c :: bt).length + fuel = (bt.length + fuel) + 1 := by
      simp [List.length_cons]; omega
    rw [he, List.cons_append,
      replaceG_cons_none mAt c (bt ++ tail) (bt.length + fuel)
        (hnone c (List.mem_cons_self c bt) (bt ++ tail)),
      ih (fun c2 hc2 rest => hnone c2 (List.mem_cons_of_mem c hc2) rest)
        fuel tail, List.cons_append]

/-- A successful `selfRepCheck` means the global replacement at that fuel
is the identity. -/
theorem selfRepCheck_sound (mAt : List Char → Option (List Char × List Char)) :
    ∀ (fuel : Nat) (t : List Char), selfRepCheck mAt fuel t = true →
      replaceG mAt fuel t = t := by
  intro fuel
  induction fuel with
  | zero =>
    intro t h
    cases t with
    | nil => rfl
    | cons c u => exact absurd h (by simp [selfRepCheck])
  | succ f ih =>
    intro t h
    cases t with
    | nil => rfl
    | cons c u =>
      cases hm : mAt (c :: u) with
      | none =>
        rw [replaceG_cons_none mAt c u f hm]
        have h2 : selfRepCheck mAt f u = true := by
          rw [selfRepCheck, hm] at h; exact h
        rw [ih u h2]
      | some pr =>
        obtain ⟨rep, rest⟩ := pr
        have h2 : (rep ++ rest == c :: u) = true ∧
            selfRepCheck mAt f rest = true := by
          rw [selfRepCheck, hm] at h
          exact Bool.and_eq_true_iff.mp h
        rw [replaceG_cons_some mAt c u rep rest f hm, ih rest h2.2]
        exact beq_iff_eq.mp h2.1

/-- `selfRepCheck` is monotone in fuel. -/
theorem selfRepCheck_mono (mAt : List Char → Option (List Char × List Char)) :
    ∀ (fuel : Nat) (t : List Char), selfRepCheck mAt fuel t = true →
      selfRepCheck mAt (fuel + 1) t = true := by
  intro fuel
  induction fuel with
  | zero =>
    intro t h
    cases t with
    | nil => rfl
    | cons c u => exact absurd h (by simp [selfRepCheck])
  | succ f ih =>
    intro t h
    cases t with
    | nil => rfl
    | cons c u =>
      cases hm : mAt (c :: u) with
      | none =>
        rw [selfRepCheck, hm] at h ⊢
        exact ih u h
      | some pr =>
        obtain ⟨rep, rest⟩ := pr
        rw [selfRepCheck, hm] at h ⊢
        obtain ⟨h1, h2⟩ := Bool.and_eq_true_iff.mp h
        exact Bool.and_eq_true_iff.mpr ⟨h1, ih rest h2⟩

/-- A successful `selfRepCheck` makes the replacement the identity at the
checked fuel or any larger fuel. -/
theorem selfRepCheck_ge (mAt : List Char → Option (List Char × List Char))
    (fuel : Nat) (t : List Char) (h : selfRepCheck mAt fuel t = true)
    (k : Nat) : replaceG mAt (fuel + k) t = t := by
  have hk : selfRepCheck mAt (fuel + k) t = true := by
    induction k with
    | zero => exact h
    | succ j ihj => exact selfRepCheck_mono mAt (fuel + j) t ihj
  exact selfRepCheck_sound mAt (fuel + k) t hk

/-- `toLower` fixes every character outside the capital-letter range. -/
theorem toLower_fix (c : Char) (h : ¬(c.toNat ≥ 65 ∧ c.toNat ≤ 90)) :
    c.toLower = c := by
  unfold Char.toLower
  simp only
  rw [if_neg h]

/-- A lower-case letter never matches a digit case-insensitively. -/
theorem ciChar_lower_digit (p d : Char) (hp1 : 97 ≤ p.toNat)
    (hp2 : p.toNat ≤ 122) (hd : d.isDigit = true) : ciChar p d = false := by
  have hdn : 48 ≤ d.toNat ∧ d.toNat ≤ 57 := by
    simp only [Char.isDigit, Bool.and_eq_true, decide_eq_true_eq] at hd
    exact hd
  have h1 : p.toLower = p := toLower_fix p (by omega)
  have h2 : d.toLower = d := toLower_fix d (by omega)
  unfold ciChar
  rw [h1, h2]
  simp only [decide_eq_false_iff_not]
  intro he
  rw [he] at hp1
  omega

/-- A keyword (lower-case letters) never case-insensitively prefixes text
starting with a digit. -/
theorem ciStarts_digit_false (p : Char) (ps : List Char) (d : Char)
    (rest : List Char) (hp1 : 97 ≤ p.toNat) (hp2 : p.toNat ≤ 122)
    (hd : d.isDigit = true) : ciStarts (p :: ps) (d :: rest) = false := by
  show (ciChar p d && ciStarts ps rest) = false
  rw [ciChar_lower_digit p d hp1 hp2 hd]
  rfl

/-- The keyword-join pattern `\s+KW\s+` needs leading whitespace. -/
theorem kwJoinAt_nonspace (w up : List Char) (c : Char) (t : List Char)
    (h : isJsSpace c = false) : kwJoinAt w up (c :: t) = none := by
  simp [kwJoinAt, List.takeWhile_cons, h]

/-- The operator-run pattern finds no operator at a non-space character
different from the operator. -/
theorem opRunAt_head_ne (op c : Char) (t : List Char)
    (hs : isJsSpace c = false) (hne : ¬c = op) : opRunAt op (c :: t) = none := by
  simp [opRunAt, List.takeWhile_cons, hs, hne]

/-- The caret pattern finds no caret at a non-space character different
from the caret. -/
theorem caretRunAt_head_ne (c : Char) (t : List Char)
    (hs : isJsSpace c = false) (hne : ¬c = '^') : caretRunAt (c :: t) = none := by
  simp [caretRunAt, List.takeWhile_cons, hs, hne]

/-- The semantic-tag pattern starts with a literal pipe. -/
theorem tagMatchAt_head_ne (c : Char) (t : List Char) (hne : ¬c = '|') :
    tagMatchAt (c :: t) = none := by
  simp [tagMatchAt, hne]

/-- The whitespace-collapsing pattern needs a whitespace character. -/
theorem wsRunAt_nonspace (c : Char) (t : List Char)
    (hs : isJsSpace c = false) : wsRunAt (c :: t) = none := by
  simp [wsRunAt, List.takeWhile_cons, hs]

/-- A digit differs from any non-digit character. -/
theorem digit_ne_of_isDigit (c d : Char) (hc : c.isDigit = true)
    (hd : d.isDigit = false) : ¬c = d := by
  intro h
  rw [h, hd] at hc
  cases hc

/-- Digits never start a keyword-join match. -/
theorem kwJoinAt_digit (w up : List Char) (c : Char) (rest : List Char)
    (hc : c.isDigit = true) : kwJoinAt w up (c :: rest) = none :=
  kwJoinAt_nonspace w up c rest (isJsSpace_eq_false_of_digit c hc)

/-- Digits never start an operator-run match (the operator itself is not
a digit). -/
theorem opRunAt_digit (op : Char) (hop : op.isDigit = false) (c : Char)
    (rest : List Char) (hc : c.isDigit = true) : opRunAt op (c :: rest) = none :=
  opRunAt_head_ne op c rest (isJsSpace_eq_false_of_digit c hc)
    (digit_ne_of_isDigit c op hc hop)

/-- Digits never start a caret-run match. -/
theorem caretRunAt_digit (c : Char) (rest : List Char)
    (hc : c.isDigit = true) : caretRunAt (c :: rest) = none :=
  caretRunAt_head_ne c rest (isJsSpace_eq_false_of_digit c hc)
    (digit_ne_of_isDigit c '^' hc (by decide))

/-- Digits never start a semantic-tag match. -/
theorem tagMatchAt_digit (c : Char) (rest : List Char)
    (hc : c.isDigit = true) : tagMatchAt (c :: rest) = none :=
  tagMatchAt_head_ne c rest (digit_ne_of_isDigit c '|' hc (by decide))

/-- Digits never start a whitespace-run match. -/
theorem wsRunAt_digit (c : Char) (rest : List Char)
    (hc : c.isDigit = true) : wsRunAt (c :: rest) = none :=
  wsRunAt_nonspace c rest (isJsSpace_eq_false_of_digit c hc)

/-- At the single space before the digit run, the keyword-join pattern
fails: the maximal whitespace run is that one space and a digit follows
where the keyword letter would stand. -/
theorem kwJoinAt_space_digit (p : Char) (ps up : List Char)
    (hp1 : 97 ≤ p.toNat) (hp2 : p.toNat ≤ 122) (d : Char) (rest : List Char)
    (hd : d.isDigit = true) :
    kwJoinAt (p :: ps) up (' ' :: d :: rest) = none := by
  have hsp : isJsSpace ' ' = true := by decide
  have hdns : isJsSpace d = false := isJsSpace_eq_false_of_digit d hd
  simp [kwJoinAt, List.takeWhile_cons, hsp, hdns,
    ciStarts_digit_false p ps d rest hp1 hp2 hd]

/-- At the single space before the digit run, the operator-run pattern
fails: no operator character follows the whitespace. -/
theorem opRunAt_space_digit (op d : Char) (rest : List Char)
    (hd : d.isDigit = true) (hop : op.isDigit = false) :
    opRunAt op (' ' :: d :: rest) = none := by
  have hsp : isJsSpace ' ' = true := by decide
  have hdns : isJsSpace d = false := isJsSpace_eq_false_of_digit d hd
  have hne : ¬d = op := digit_ne_of_isDigit d op hd hop
  simp [opRunAt, List.takeWhile_cons, hsp, hdns, hne]

/-- At the single space before the digit run, the caret pattern fails. -/
theorem caretRunAt_space_digit (d : Char) (rest : List Char)
    (hd : d.isDigit = true) : caretRunAt (' ' :: d :: rest) = none := by
  have hsp : isJsSpace ' ' = true := by decide
  have hdns : isJsSpace d = false := isJsSpace_eq_false_of_digit d hd
  have hne : ¬d = '^' := digit_ne_of_isDigit d '^' hd (by decide)
  simp [caretRunAt, List.takeWhile_cons, hsp, hdns, hne]

/-- At the single space before the digit run, whitespace collapsing
matches exactly that space and replaces it by itself. -/
theorem wsRunAt_space_digit (d : Char) (rest : List Char)
    (hd : d.isDigit = true) :
    wsRunAt (' ' :: d :: rest) = some ([' '], d :: rest) := by
  have hsp : isJsSpace ' ' = true := by decide
  have hdns : isJsSpace d = false := isJsSpace_eq_false_of_digit d hd
  simp [wsRunAt, List.takeWhile_cons, hsp, hdns]

/-- A single operator followed by one space and a digit matches the
operator-run pattern, replacing itself. -/
theorem opRunAt_single (op : Char) (hns : isJsSpace op = false)
    (hnsp : ¬(' ' = op)) (d : Char) (rest : List Char) (hd : d.isDigit = true) :
    opRunAt op (op :: ' ' :: d :: rest) = some ([op, ' '], d :: rest) := by
  have hsp : isJsSpace ' ' = true := by decide
  have hdns : isJsSpace d = false := isJsSpace_eq_false_of_digit d hd
  simp [opRunAt, List.takeWhile_cons, hns, hsp, hdns, hnsp]

/-- A doubled operator followed by one space and a digit matches the
operator-run pattern, replacing itself. -/
theorem opRunAt_double (op : Char) (hns : isJsSpace op = false)
    (hnsp : ¬(' ' = op)) (d : Char) (rest : List Char) (hd : d.isDigit = true) :
    opRunAt op (op :: op :: ' ' :: d :: rest) =
      some ([op, op, ' '], d :: rest) := by
  have hsp : isJsSpace ' ' = true := by decide
  have hdns : isJsSpace d = false := isJsSpace_eq_false_of_digit d hd
  simp [opRunAt, List.takeWhile_cons, hns, hsp, hdns, hnsp]

/-- A caret followed by one space and a digit matches the caret pattern,
replacing itself. -/
theorem caretRunAt_own (d : Char) (rest : List Char) (hd : d.isDigit = true) :
    caretRunAt ('^' :: ' ' :: d :: rest) = some (['^', ' '], d :: rest) := by
  have hns : isJsSpace '^' = false := by decide
  have hsp : isJsSpace ' ' = true := by decide
  have hdns : isJsSpace d = false := isJsSpace_eq_false_of_digit d hd
  simp [caretRunAt, List.takeWhile_cons, hns, hsp, hdns]

/-- The last element of an appended list is the last element of its
non-empty right part. -/
theorem getLast_append_right (y T : List Char) (c : Char)
    (h : T.getLast? = some c) : (y ++ T).getLast? = some c := by
  rw [← List.head?_reverse] at h
  rw [← List.head?_reverse, List.reverse_append]
  cases hT : T.reverse with
  | nil => rw [hT] at h; cases h
  | cons a u =>
    rw [hT] at h
    simpa [List.cons_append] using h

/-- Trimming fixes a list whose first and last characters are not
whitespace. -/
theorem trimL_eq_self (x : List Char)
    (hh : ∀ c, x.head? = some c → isJsSpace c = false)
    (hl : ∀ c, x.getLast? = some c → isJsSpace c = false) :
    trimL x = x := by
  unfold trimL
  have h1 : x.dropWhile isJsSpace = x := by
    cases x with
    | nil => rfl
    | cons c t => simp [List.dropWhile_cons, hh c rfl]
  rw [h1]
  have h2 : x.reverse.dropWhile isJsSpace = x.reverse := by
    cases hx : x.reverse with
    | nil => rfl
    | cons c t =>
      have hc : x.getLast? = some c := by
        rw [← List.head?_reverse, hx]
        rfl
      simp [List.dropWhile_cons, hl c hc]
  rw [h2, List.reverse_reverse]

/-- Unpacking the decidable tail check into its stage components. -/
theorem canonTailOk_parts (T : List Char) (h : canonTailOk T = true) :
    selfRepCheck (kwJoinAt "or".data "OR".data) T.length T = true ∧
    selfRepCheck (kwJoinAt "and".data "AND".data) T.length T = true ∧
    selfRepCheck (kwJoinAt "minus".data "MINUS".data) T.length T = true ∧
    selfRepCheck (opRunAt '<') T.length T = true ∧
    selfRepCheck (opRunAt '>') T.length T = true ∧
    selfRepCheck caretRunAt T.length T = true ∧
    selfRepCheck tagMatchAt T.length T = true ∧
    selfRepCheck wsRunAt T.length T = true ∧
    (∃ c, T.getLast? = some c ∧ isJsSpace c = false) := by
  unfold canonTailOk at h
  simp only [Bool.and_eq_true] at h
  obtain ⟨⟨⟨⟨⟨⟨⟨⟨h1, h2⟩, h3⟩, h4⟩, h5⟩, h6⟩, h7⟩, h8⟩, h9⟩ := h
  refine ⟨h1, h2, h3, h4, h5, h6, h7, h8, ?_⟩
  cases hT : T.getLast? with
  | none => rw [hT] at h9; cases h9
  | some c =>
    rw [hT] at h9
    refine ⟨c, rfl, ?_⟩
    simpa using h9

/-- Core identity, no-operator shape: a stage whose pattern never fires
at a digit and leaves the tail alone fixes `digits ++ tail`. -/
theorem stage_id_noop (mAt : List Char → Option (List Char × List Char))
    (ds T : List Char)
    (hdig : ∀ c ∈ ds, c.isDigit = true)
    (hdignone : ∀ c rest, c.isDigit = true → mAt (c :: rest) = none)
    (hT : selfRepCheck mAt T.length T = true) :
    replaceStage mAt (ds ++ T) = ds ++ T := by
  unfold replaceStage
  rw [List.length_append,
    replaceG_chain mAt ds (fun c hc rest => hdignone c rest (hdig c hc))
      T.length T,
    selfRepCheck_sound mAt T.length T hT]

/-- Core identity, operator shape without an operator match: a stage
whose pattern fires at no prefix character, at most self-replaces at the
separating space, never fires at a digit and leaves the tail alone fixes
`opc ++ ' ' :: digits ++ tail`. -/
theorem stage_id_op_nomatch (mAt : List Char → Option (List Char × List Char))
    (opc ds T : List Char)
    (hopc : ∀ c ∈ opc, ∀ rest, mAt (c :: rest) = none)
    (hsp : mAt (' ' :: (ds ++ T)) = none ∨
      mAt (' ' :: (ds ++ T)) = some ([' '], ds ++ T))
    (hdig : ∀ c ∈ ds, c.isDigit = true)
    (hdignone : ∀ c rest, c.isDigit = true → mAt (c :: rest) = none)
    (hT : selfRepCheck mAt T.length T = true) :
    replaceStage mAt (opc ++ ' ' :: (ds ++ T)) = opc ++ ' ' :: (ds ++ T) := by
  unfold replaceStage
  have hlen : (opc ++ ' ' :: (ds ++ T)).length =
      opc.length + ((ds.length + T.length) + 1) := by
    simp [List.length_append, List.length_cons]
  rw [hlen, replaceG_chain mAt opc hopc ((ds.length + T.length) + 1)
    (' ' :: (ds ++ T))]
  have hdrop : replaceG mAt ((ds.length + T.length) + 1) (' ' :: (ds ++ T)) =
      ' ' :: (ds ++ T) := by
    have htail : replaceG mAt (ds.length + T.length) (ds ++ T) = ds ++ T := by
      rw [replaceG_chain mAt ds (fun c hc rest => hdignone c rest (hdig c hc))
        T.length T, selfRepCheck_sound mAt T.length T hT]
    rcases hsp with hsp | hsp
    · rw [replaceG_cons_none mAt ' ' (ds ++ T) (ds.length + T.length) hsp,
        htail]
    · rw [replaceG_cons_some mAt ' ' (ds ++ T) [' '] (ds ++ T)
        (ds.length + T.length) hsp, htail]
      rfl
  rw [hdrop]

/-- Core identity, operator shape with the operator's own match: a stage
whose pattern consumes the whole prefix replacing it by itself, never
fires at a digit and leaves the tail alone fixes the input. -/
theorem stage_id_op_match (mAt : List Char → Option (List Char × List Char))
    (p : Char) (pt ds T : List Char)
    (hm : mAt (p :: (pt ++ (ds ++ T))) = some (p :: pt, ds ++ T))
    (hdig : ∀ c ∈ ds, c.isDigit = true)
    (hdignone : ∀ c rest, c.isDigit = true → mAt (c :: rest) = none)
    (hT : selfRepCheck mAt T.length T = true) :
    replaceStage mAt ((p :: pt) ++ (ds ++ T)) = (p :: pt) ++ (ds ++ T) := by
  unfold replaceStage
  have hlen : (p :: (pt ++ (ds ++ T))).length =
      (ds.length + (T.length + pt.length)) + 1 := by
    simp [List.length_append, List.length_cons]
    omega
  rw [List.cons_append, hlen,
    replaceG_cons_some mAt p (pt ++ (ds ++ T)) (p :: pt) (ds ++ T)
      (ds.length + (T.length + pt.length)) hm,
    replaceG_chain mAt ds (fun c hc rest => hdignone c rest (hdig c hc))
      (T.length + pt.length) T,
    selfRepCheck_ge mAt T.length T hT pt.length, List.cons_append]

/-- The canonicalizer fixes any list fixed by trim and by all eight
replacement stages. -/
theorem cleanL_id_of_stages (x : List Char)
    (ht : trimL x = x)
    (h1 : replaceStage (kwJoinAt "or".data "OR".data) x = x)
    (h2 : replaceStage (kwJoinAt "and".data "AND".data) x = x)
    (h3 : replaceStage (kwJoinAt "minus".data "MINUS".data) x = x)
    (h4 : replaceStage (opRunAt '<') x = x)
    (h5 : replaceStage (opRunAt '>') x = x)
    (h6 : replaceStage caretRunAt x = x)
    (h7 : replaceStage tagMatchAt x = x)
    (h8 : replaceStage wsRunAt x = x) :
    cleanAndStandardizeEclL x = x := by
  simp only [cleanAndStandardizeEclL]
  rw [ht, h1, h2, h3, h4, h5, h6, h7, h8, ht]

/-- The canonicalizer fixes `digits ++ tail` for a nonempty digit run
and a well-behaved tail. -/
theorem cleanL_canonical_noop (ds T : List Char) (hne : ds ≠ [])
    (hdig : ds.all Char.isDigit = true) (hT : canonTailOk T = true) :
    cleanAndStandardizeEclL (ds ++ T) = ds ++ T := by
  obtain ⟨hT1, hT2, hT3, hT4, hT5, hT6, hT7, hT8, cl, hcl, hclns⟩ :=
    canonTailOk_parts T hT
  simp only [List.all_eq_true] at hdig
  have ht : trimL (ds ++ T) = ds ++ T := by
    apply trimL_eq_self
    · intro c hc
      cases ds with
      | nil => exact absurd rfl hne
      | cons d dt =>
        rw [List.cons_append, List.head?_cons] at hc
        have hdc : d = c := by injection hc
        subst hdc
        exact isJsSpace_eq_false_of_digit d
          (hdig d (List.mem_cons_self d dt))
    · intro c hc
      rw [getLast_append_right ds T cl hcl] at hc
      have hdc : cl = c := by injection hc
      subst hdc
      exact hclns
  exact cleanL_id_of_stages (ds ++ T) ht
    (stage_id_noop _ ds T hdig
      (fun c rest hc => kwJoinAt_digit _ _ c rest hc) hT1)
    (stage_id_noop _ ds T hdig
      (fun c rest hc => kwJoinAt_digit _ _ c rest hc) hT2)
    (stage_id_noop _ ds T hdig
      (fun c rest hc => kwJoinAt_digit _ _ c rest hc) hT3)
    (stage_id_noop _ ds T hdig
      (fun c rest hc => opRunAt_digit '<' (by decide) c rest hc) hT4)
    (stage_id_noop _ ds T hdig
      (fun c rest hc => opRunAt_digit '>' (by decide) c rest hc) hT5)
    (stage_id_noop _ ds T hdig
      (fun c rest hc => caretRunAt_digit c rest hc) hT6)
    (stage_id_noop _ ds T hdig
      (fun c rest hc => tagMatchAt_digit c rest hc) hT7)
    (stage_id_noop _ ds T hdig
      (fun c rest hc => wsRunAt_digit c rest hc) hT8)

/-- The canonicalizer fixes `opc ++ ' ' :: digits ++ tail` whenever the
operator prefix starts no keyword, tag or whitespace match and the three
operator stages fix the input. -/
theorem cleanL_canonical_op (opc ds T : List Char)
    (hopcne : opc ≠ [])
    (hopcb : ∀ c ∈ opc, isJsSpace c = false ∧ ¬c = '|')
    (hne : ds ≠ []) (hdig0 : ds.all Char.isDigit = true)
    (hT : canonTailOk T = true)
    (hlt : replaceStage (opRunAt '<') (opc ++ ' ' :: (ds ++ T)) =
      opc ++ ' ' :: (ds ++ T))
    (hgt : replaceStage (opRunAt '>') (opc ++ ' ' :: (ds ++ T)) =
      opc ++ ' ' :: (ds ++ T))
    (hcaret : replaceStage caretRunAt (opc ++ ' ' :: (ds ++ T)) =
      opc ++ ' ' :: (ds ++ T)) :
    cleanAndStandardizeEclL (opc ++ ' ' :: (ds ++ T)) =
      opc ++ ' ' :: (ds ++ T) := by
  obtain ⟨hT1, hT2, hT3, hT4, hT5, hT6, hT7, hT8, cl, hcl, hclns⟩ :=
    canonTailOk_parts T hT
  simp only [List.all_eq_true] at hdig0
  obtain ⟨d, dt, rfl⟩ : ∃ d dt, ds = d :: dt := by
    cases ds with
    | nil => exact absurd rfl hne
    | cons a b => exact ⟨a, b, rfl⟩
  have hd : d.isDigit = true := hdig0 d (List.mem_cons_self d dt)
  have ht : trimL (opc ++ ' ' :: ((d :: dt) ++ T)) =
      opc ++ ' ' :: ((d :: dt) ++ T) := by
    apply trimL_eq_self
    · intro c hc
      obtain ⟨p, pt, rfl⟩ : ∃ p pt, opc = p :: pt := by
        cases opc with
        | nil => exact absurd rfl hopcne
        | cons a b => exact ⟨a, b, rfl⟩
      rw [List.cons_append, List.head?_cons] at hc
      have hpc : p = c := by injection hc
      subst hpc
      exact (hopcb p (List.mem_cons_self p pt)).1
    · intro c hc
      have hgl : ((opc ++ (' ' :: (d :: dt))) ++ T).getLast? = some cl :=
        getLast_append_right (opc ++ (' ' :: (d :: dt))) T cl hcl
      rw [List.append_assoc, List.cons_append] at hgl
      rw [hgl] at hc
      have hcc : cl = c := by injection hc
      subst hcc
      exact hclns
  have hsp_or : kwJoinAt "or".data "OR".data (' ' :: ((d :: dt) ++ T)) =
      none := by
    show kwJoinAt ('o' :: ['r']) "OR".data (' ' :: (d :: (dt ++ T))) = none
    exact kwJoinAt_space_digit 'o' ['r'] "OR".data (by decide) (by decide) d
      (dt ++ T) hd
  have hsp_and : kwJoinAt "and".data "AND".data (' ' :: ((d :: dt) ++ T)) =
      none := by
    show kwJoinAt ('a' :: ['n', 'd']) "AND".data
      (' ' :: (d :: (dt ++ T))) = none
    exact kwJoinAt_space_digit 'a' ['n', 'd'] "AND".data (by decide)
      (by decide) d (dt ++ T) hd
  have hsp_minus : kwJoinAt "minus".data "MINUS".data
      (' ' :: ((d :: dt) ++ T)) = none := by
    show kwJoinAt ('m' :: ['i', 'n', 'u', 's']) "MINUS".data
      (' ' :: (d :: (dt ++ T))) = none
    exact kwJoinAt_space_digit 'm' ['i', 'n', 'u', 's'] "MINUS".data
      (by decide) (by decide) d (dt ++ T) hd
  have hsp_tag : tagMatchAt (' ' :: ((d :: dt) ++ T)) = none :=
    tagMatchAt_head_ne ' ' _ (by decide)
  have hsp_ws : wsRunAt (' ' :: ((d :: dt) ++ T)) =
      some ([' '], (d :: dt) ++ T) := by
    show wsRunAt (' ' :: (d :: (dt ++ T))) = some ([' '], d :: (dt ++ T))
    exact wsRunAt_space_digit d (dt ++ T) hd
  have htag_opc : ∀ c ∈ opc, ∀ rest, tagMatchAt (c :: rest) = none :=
    fun c hc rest => tagMatchAt_head_ne c rest (hopcb c hc).2
  have hws_opc : ∀ c ∈ opc, ∀ rest, wsRunAt (c :: rest) = none :=
    fun c hc rest => wsRunAt_nonspace c rest (hopcb c hc).1
  exact cleanL_id_of_stages _ ht
    (stage_id_op_nomatch _ opc (d :: dt) T
      (fun c hc rest => kwJoinAt_nonspace _ _ c rest (hopcb c hc).1)
      (Or.inl hsp_or) hdig0
      (fun c rest hc => kwJoinAt_digit _ _ c rest hc) hT1)
    (stage_id_op_nomatch _ opc (d :: dt) T
      (fun c hc rest => kwJoinAt_nonspace _ _ c rest (hopcb c hc).1)
      (Or.inl hsp_and) hdig0
      (fun c rest hc => kwJoinAt_digit _ _ c rest hc) hT2)
    (stage_id_op_nomatch _ opc (d :: dt) T
      (fun c hc rest => kwJoinAt_nonspace _ _ c rest (hopcb c hc).1)
      (Or.inl hsp_minus) hdig0
      (fun c rest hc => kwJoinAt_digit _ _ c rest hc) hT3)
    hlt hgt hcaret
    (stage_id_op_nomatch _ opc (d :: dt) T htag_opc (Or.inl hsp_tag) hdig0
      (fun c rest hc => tagMatchAt_digit c rest hc) hT7)
    (stage_id_op_nomatch _ opc (d :: dt) T hws_opc (Or.inr hsp_ws) hdig0
      (fun c rest hc => wsRunAt_digit c rest hc) hT8)

/-- The canonicalizer fixes `< digits |term|` outputs. -/
theorem cleanL_canonical_lt1 (ds T : List Char) (hne : ds ≠ [])
    (hdig : ds.all Char.isDigit = true) (hT : canonTailOk T = true) :
    cleanAndStandardizeEclL (['<'] ++ ' ' :: (ds ++ T)) =
      ['<'] ++ ' ' :: (ds ++ T) := by
  obtain ⟨_, _, _, hT4, hT5, hT6, _, _, _⟩ := canonTailOk_parts T hT
  obtain ⟨d, dt, rfl⟩ : ∃ d dt, ds = d :: dt := by
    cases ds with
    | nil => exact absurd rfl hne
    | cons a b => exact ⟨a, b, rfl⟩
  have hall : ∀ c ∈ d :: dt, c.isDigit = true := by
    have h2 := hdig
    simp only [List.all_eq_true] at h2
    exact h2
  have hd : d.isDigit = true := hall d (List.mem_cons_self d dt)
  have hlt : replaceStage (opRunAt '<') (['<'] ++ ' ' :: ((d :: dt) ++ T)) =
      ['<'] ++ ' ' :: ((d :: dt) ++ T) := by
    have hm : opRunAt '<' ('<' :: ([' '] ++ ((d :: dt) ++ T))) =
        some ('<' :: [' '], (d :: dt) ++ T) := by
      show opRunAt '<' ('<' :: ' ' :: d :: (dt ++ T)) =
        some (['<', ' '], d :: (dt ++ T))
      exact opRunAt_single '<' (by decide) (by decide) d (dt ++ T) hd
    exact stage_id_op_match (opRunAt '<') '<' [' '] (d :: dt) T hm hall
      (fun c rest hc => opRunAt_digit '<' (by decide) c rest hc) hT4
  have hgt : replaceStage (opRunAt '>') (['<'] ++ ' ' :: ((d :: dt) ++ T)) =
      ['<'] ++ ' ' :: ((d :: dt) ++ T) :=
    stage_id_op_nomatch (opRunAt '>') ['<'] (d :: dt) T
      (fun c hc rest => by
        have hcc : c = '<' := by simpa using hc
        subst hcc
        exact opRunAt_head_ne '>' '<' rest (by decide) (by decide))
      (Or.inl (by
        show opRunAt '>' (' ' :: (d :: (dt ++ T))) = none
        exact opRunAt_space_digit '>' d (dt ++ T) hd (by decide)))
      hall (fun c rest hc => opRunAt_digit '>' (by decide) c rest hc) hT5
  have hcaret : replaceStage caretRunAt (['<'] ++ ' ' :: ((d :: dt) ++ T)) =
      ['<'] ++ ' ' :: ((d :: dt) ++ T) :=
    stage_id_op_nomatch caretRunAt ['<'] (d :: dt) T
      (fun c hc rest => by
        have hcc : c = '<' := by simpa using hc
        subst hcc
        exact caretRunAt_head_ne '<' rest (by decide) (by decide))
      (Or.inl (by
        show caretRunAt (' ' :: (d :: (dt ++ T))) = none
        exact caretRunAt_space_digit d (dt ++ T) hd))
      hall (fun c rest hc => caretRunAt_digit c rest hc) hT6
  exact cleanL_canonical_op ['<'] (d :: dt) T (by simp)
    (fun c hc => by
      have hcc : c = '<' := by simpa using hc
      subst hcc
      exact ⟨by decide, by decide⟩)
    (by simp) hdig hT hlt hgt hcaret

/-- The canonicalizer fixes `<< digits |term|` outputs. -/
theorem cleanL_canonical_lt2 (ds T : List Char) (hne : ds ≠ [])
    (hdig : ds.all Char.isDigit = true) (hT : canonTailOk T = true) :
    cleanAndStandardizeEclL (['<', '<'] ++ ' ' :: (ds ++ T)) =
      ['<', '<'] ++ ' ' :: (ds ++ T) := by
  obtain ⟨_, _, _, hT4, hT5, hT6, _, _, _⟩ := canonTailOk_parts T hT
  obtain ⟨d, dt, rfl⟩ : ∃ d dt, ds = d :: dt := by
    cases ds with
    | nil => exact absurd rfl hne
    | cons a b => exact ⟨a, b, rfl⟩
  have hall : ∀ c ∈ d :: dt, c.isDigit = true := by
    have h2 := hdig
    simp only [List.all_eq_true] at h2
    exact h2
  have hd : d.isDigit = true := hall d (List.mem_cons_self d dt)
  have hlt : replaceStage (opRunAt '<') (['<', '<'] ++ ' ' :: ((d :: dt) ++ T)) =
      ['<', '<'] ++ ' ' :: ((d :: dt) ++ T) := by
    have hm : opRunAt '<' ('<' :: (['<', ' '] ++ ((d :: dt) ++ T))) =
        some ('<' :: ['<', ' '], (d :: dt) ++ T) := by
      show opRunAt '<' ('<' :: '<' :: ' ' :: d :: (dt ++ T)) =
        some (['<', '<', ' '], d :: (dt ++ T))
      exact opRunAt_double '<' (by decide) (by decide) d (dt ++ T) hd
    exact stage_id_op_match (opRunAt '<') '<' ['<', ' '] (d :: dt) T hm hall
      (fun c rest hc => opRunAt_digit '<' (by decide) c rest hc) hT4
  have hgt : replaceStage (opRunAt '>') (['<', '<'] ++ ' ' :: ((d :: dt) ++ T)) =
      ['<', '<'] ++ ' ' :: ((d :: dt) ++ T) := 
    stage_id_op_nomatch (opRunAt '>') ['<', '<'] (d :: dt) T
      (fun c hc rest => by
        have hcc : c = '<' := by simpa using hc
        subst hcc
        exact opRunAt_head_ne '>' '<' rest (by decide) (by decide))
      (Or.inl (by
        show opRunAt '>' (' ' :: (d :: (dt ++ T))) = none
        exact opRunAt_space_digit '>' d (dt ++ T) hd (by decide)))
      hall (fun c rest hc => opRunAt_digit '>' (by decide) c rest hc) hT5
  have hcaret : replaceStage caretRunAt (['<', '<'] ++ ' ' :: ((d :: dt) ++ T)) =
      ['<', '<'] ++ ' ' :: ((d :: dt) ++ T) := 
    stage_id_op_nomatch caretRunAt ['<', '<'] (d :: dt) T
      (fun c hc rest => by
        have hcc : c = '<' := by simpa using hc
        subst hcc
        exact caretRunAt_head_ne '<' rest (by decide) (by decide))
      (Or.inl (by
        show caretRunAt (' ' :: (d :: (dt ++ T))) = none
        exact caretRunAt_space_digit d (dt ++ T) hd))
      hall (fun c rest hc => caretRunAt_digit c rest hc) hT6
  exact cleanL_canonical_op ['<', '<'] (d :: dt) T (by simp)
    (fun c hc => by
      have hcc : c = '<' := by simpa using hc
      subst hcc
      exact ⟨by decide, by decide⟩)
    (by simp) hdig hT hlt hgt hcaret

/-- The canonicalizer fixes `> digits |term|` outputs. -/
theorem cleanL_canonical_gt1 (ds T : List Char) (hne : ds ≠ [])
    (hdig : ds.all Char.isDigit = true) (hT : canonTailOk T = true) :
    cleanAndStandardizeEclL (['>'] ++ ' ' :: (ds ++ T)) =
      ['>'] ++ ' ' :: (ds ++ T) := by
  obtain ⟨_, _, _, hT4, hT5, hT6, _, _, _⟩ := canonTailOk_parts T hT
  obtain ⟨d, dt, rfl⟩ : ∃ d dt, ds = d :: dt := by
    cases ds with
    | nil => exact absurd rfl hne
    | cons a b => exact ⟨a, b, rfl⟩
  have hall : ∀ c ∈ d :: dt, c.isDigit = true := by
    have h2 := hdig
    simp only [List.all_eq_true] at h2
    exact h2
  have hd : d.isDigit = true := hall d (List.mem_cons_self d dt)
  have hlt : replaceStage (opRunAt '<') (['>'] ++ ' ' :: ((d :: dt) ++ T)) =
      ['>'] ++ ' ' :: ((d :: dt) ++ T) := 
    stage_id_op_nomatch (opRunAt '<') ['>'] (d :: dt) T
      (fun c hc rest => by
        have hcc : c = '>' := by simpa using hc
        subst hcc
        exact opRunAt_head_ne '<' '>' rest (by decide) (by decide))
      (Or.inl (by
        show opRunAt '<' (' ' :: (d :: (dt ++ T))) = none
        exact opRunAt_space_digit '<' d (dt ++ T) hd (by decide)))
      hall (fun c rest hc => opRunAt_digit '<' (by decide) c rest hc) hT4
  have hgt : replaceStage (opRunAt '>') (['>'] ++ ' ' :: ((d :: dt) ++ T)) =
      ['>'] ++ ' ' :: ((d :: dt) ++ T) := by
    have hm : opRunAt '>' ('>' :: ([' '] ++ ((d :: dt) ++ T))) =
        some ('>' :: [' '], (d :: dt) ++ T) := by
      show opRunAt '>' ('>' :: ' ' :: d :: (dt ++ T)) =
        some (['>', ' '], d :: (dt ++ T))
      exact opRunAt_single '>' (by decide) (by decide) d (dt ++ T) hd
    exact stage_id_op_match (opRunAt '>') '>' [' '] (d :: dt) T hm hall
      (fun c rest hc => opRunAt_digit '>' (by decide) c rest hc) hT5
  have hcaret : replaceStage caretRunAt (['>'] ++ ' ' :: ((d :: dt) ++ T)) =
      ['>'] ++ ' ' :: ((d :: dt) ++ T) := 
    stage_id_op_nomatch caretRunAt ['>'] (d :: dt) T
      (fun c hc rest => by
        have hcc : c = '>' := by simpa using hc
        subst hcc
        exact caretRunAt_head_ne '>' rest (by decide) (by decide))
      (Or.inl (by
        show caretRunAt (' ' :: (d :: (dt ++ T))) = none
        exact caretRunAt_space_digit d (dt ++ T) hd))
      hall (fun c rest hc => caretRunAt_digit c rest hc) hT6
  exact cleanL_canonical_op ['>'] (d :: dt) T (by simp)
    (fun c hc => by
      have hcc : c = '>' := by simpa using hc
      subst hcc
      exact ⟨by decide, by decide⟩)
    (by simp) hdig hT hlt hgt hcaret

/-- The canonicalizer fixes `>> digits |term|` outputs. -/
theorem cleanL_canonical_gt2 (ds T : List Char) (hne : ds ≠ [])
    (hdig : ds.all Char.isDigit = true) (hT : canonTailOk T = true) :
    cleanAndStandardizeEclL (['>', '>'] ++ ' ' :: (ds ++ T)) =
      ['>', '>'] ++ ' ' :: (ds ++ T) := by
  obtain ⟨_, _, _, hT4, hT5, hT6, _, _, _⟩ := canonTailOk_parts T hT
  obtain ⟨d, dt, rfl⟩ : ∃ d dt, ds = d :: dt := by
    cases ds with
    | nil => exact absurd rfl hne
    | cons a b => exact ⟨a, b, rfl⟩
  have hall : ∀ c ∈ d :: dt, c.isDigit = true := by
    have h2 := hdig
    simp only [List.all_eq_true] at h2
    exact h2
  have hd : d.isDigit = true := hall d (List.mem_cons_self d dt)
  have hlt : replaceStage (opRunAt '<') (['>', '>'] ++ ' ' :: ((d :: dt) ++ T)) =
      ['>', '>'] ++ ' ' :: ((d :: dt) ++ T) := 
    stage_id_op_nomatch (opRunAt '<') ['>', '>'] (d :: dt) T
      (fun c hc rest => by
        have hcc : c = '>' := by simpa using hc
        subst hcc
        exact opRunAt_head_ne '<' '>' rest (by decide) (by decide))
      (Or.inl (by
        show opRunAt '<' (' ' :: (d :: (dt ++ T))) = none
        exact opRunAt_space_digit '<' d (dt ++ T) hd (by decide)))
      hall (fun c rest hc => opRunAt_digit '<' (by decide) c rest hc) hT4
  have hgt : replaceStage (opRunAt '>') (['>', '>'] ++ ' ' :: ((d :: dt) ++ T)) =
      ['>', '>'] ++ ' ' :: ((d :: dt) ++ T) := by
    have hm : opRunAt '>' ('>' :: (['>', ' '] ++ ((d :: dt) ++ T))) =
        some ('>' :: ['>', ' '], (d :: dt) ++ T) := by
      show opRunAt '>' ('>' :: '>' :: ' ' :: d :: (dt ++ T)) =
        some (['>', '>', ' '], d :: (dt ++ T))
      exact opRunAt_double '>' (by decide) (by decide) d (dt ++ T) hd
    exact stage_id_op_match (opRunAt '>') '>' ['>', ' '] (d :: dt) T hm hall
      (fun c rest hc => opRunAt_digit '>' (by decide) c rest hc) hT5
  have hcaret : replaceStage caretRunAt (['>', '>'] ++ ' ' :: ((d :: dt) ++ T)) =
      ['>', '>'] ++ ' ' :: ((d :: dt) ++ T) := 
    stage_id_op_nomatch caretRunAt ['>', '>'] (d :: dt) T
      (fun c hc rest => by
        have hcc : c = '>' := by simpa using hc
        subst hcc
        exact caretRunAt_head_ne '>' rest (by decide) (by decide))
      (Or.inl (by
        show caretRunAt (' ' :: (d :: (dt ++ T))) = none
        exact caretRunAt_space_digit d (dt ++ T) hd))
      hall (fun c rest hc => caretRunAt_digit c rest hc) hT6
  exact cleanL_canonical_op ['>', '>'] (d :: dt) T (by simp)
    (fun c hc => by
      have hcc : c = '>' := by simpa using hc
      subst hcc
      exact ⟨by decide, by decide⟩)
    (by simp) hdig hT hlt hgt hcaret

/-- The canonicalizer fixes `^ digits |term|` outputs. -/
theorem cleanL_canonical_caret (ds T : List Char) (hne : ds ≠ [])
    (hdig : ds.all Char.isDigit = true) (hT : canonTailOk T = true) :
    cleanAndStandardizeEclL (['^'] ++ ' ' :: (ds ++ T)) =
      ['^'] ++ ' ' :: (ds ++ T) := by
  obtain ⟨_, _, _, hT4, hT5, hT6, _, _, _⟩ := canonTailOk_parts T hT
  obtain ⟨d, dt, rfl⟩ : ∃ d dt, ds = d :: dt := by
    cases ds with
    | nil => exact absurd rfl hne
    | cons a b => exact ⟨a, b, rfl⟩
  have hall : ∀ c ∈ d :: dt, c.isDigit = true := by
    have h2 := hdig
    simp only [List.all_eq_true] at h2
    exact h2
  have hd : d.isDigit = true := hall d (List.mem_cons_self d dt)
  have hlt : replaceStage (opRunAt '<') (['^'] ++ ' ' :: ((d :: dt) ++ T)) =
      ['^'] ++ ' ' :: ((d :: dt) ++ T) := 
    stage_id_op_nomatch (opRunAt '<') ['^'] (d :: dt) T
      (fun c hc rest => by
        have hcc : c = '^' := by simpa using hc
        subst hcc
        exact opRunAt_head_ne '<' '^' rest (by decide) (by decide))
      (Or.inl (by
        show opRunAt '<' (' ' :: (d :: (dt ++ T))) = none
        exact opRunAt_space_digit '<' d (dt ++ T) hd (by decide)))
      hall (fun c rest hc => opRunAt_digit '<' (by decide) c rest hc) hT4
  have hgt : replaceStage (opRunAt '>') (['^'] ++ ' ' :: ((d :: dt) ++ T)) =
      ['^'] ++ ' ' :: ((d :: dt) ++ T) := 
    stage_id_op_nomatch (opRunAt '>') ['^'] (d :: dt) T
      (fun c hc rest => by
        have hcc : c = '^' := by simpa using hc
        subst hcc
        exact opRunAt_head_ne '>' '^' rest (by decide) (by decide))
      (Or.inl (by
        show opRunAt '>' (' ' :: (d :: (dt ++ T))) = none
        exact opRunAt_space_digit '>' d (dt ++ T) hd (by decide)))
      hall (fun c rest hc => opRunAt_digit '>' (by decide) c rest hc) hT5
  have hcaret : replaceStage caretRunAt (['^'] ++ ' ' :: ((d :: dt) ++ T)) =
      ['^'] ++ ' ' :: ((d :: dt) ++ T) := by
    have hm : caretRunAt ('^' :: ([' '] ++ ((d :: dt) ++ T))) =
        some ('^' :: [' '], (d :: dt) ++ T) := by
      show caretRunAt ('^' :: ' ' :: d :: (dt ++ T)) =
        some (['^', ' '], d :: (dt ++ T))
      exact caretRunAt_own d (dt ++ T) hd
    exact stage_id_op_match caretRunAt '^' [' '] (d :: dt) T hm hall
      (fun c rest hc => caretRunAt_digit c rest hc) hT6
  exact cleanL_canonical_op ['^'] (d :: dt) T (by simp)
    (fun c hc => by
      have hcc : c = '^' := by simpa using hc
      subst hcc
      exact ⟨by decide, by decide⟩)
    (by simp) hdig hT hlt hgt hcaret

/-- A string fixed by the list-level canonicalizer is fixed by the
string-level canonicalizer. -/
theorem clean_eq_of_dataL (s : String)
    (h : cleanAndStandardizeEclL s.data = s.data) :
    cleanAndStandardizeEcl s = s := by
  unfold cleanAndStandardizeEcl
  rw [h]

/-- Character data of a canonical output without an operator. -/
theorem mkCanonicalOut_data_none (ds : List Char) (term : String) :
    (mkCanonicalOut "" ds term).data =
      ds ++ (" |" ++ term ++ "|").data := by
  unfold mkCanonicalOut
  rw [if_pos rfl]
  simp [String.data_append, List.append_assoc]

/-- Character data of a canonical output with an operator. -/
theorem mkCanonicalOut_data_op (op : String) (hop : ¬op = "")
    (ds : List Char) (term : String) :
    (mkCanonicalOut op ds term).data =
      op.data ++ ' ' :: (ds ++ (" |" ++ term ++ "|").data) := by
  unfold mkCanonicalOut
  rw [if_neg hop]
  simp [String.data_append, List.append_assoc]

/-- C3 (corrected): the canonicalizer `cleanAndStandardizeEcl` is not
idempotent on all strings (a piped term carrying two parentheticals is
the counterexample), but it is idempotent on the engine's own canonical
outputs: every string `[op ]digits |term|` built from a constraint
operator, a nonempty digit run and one of the engine's default terms is
a fixed point, so a second application changes nothing there. -/
theorem clean_canonical_fixed (op term : String) (ds : List Char)
    (hop : op ∈ (["", "<", "<<", ">", ">>", "^"] : List String))
    (hterm : term ∈ (["SNOMED CT concept", "dm+d concept",
      "SNOMED CT reference set"] : List String))
    (hne : ds ≠ []) (hdig : ds.all Char.isDigit = true) :
    cleanAndStandardizeEcl (mkCanonicalOut op ds term) =
      mkCanonicalOut op ds term ∧
    cleanAndStandardizeEcl (cleanAndStandardizeEcl
      (mkCanonicalOut op ds term)) =
      cleanAndStandardizeEcl (mkCanonicalOut op ds term) := by
  have main : cleanAndStandardizeEcl (mkCanonicalOut op ds term) =
      mkCanonicalOut op ds term := by
    simp only [List.mem_cons, List.mem_nil_iff, or_false] at hop hterm
    apply clean_eq_of_dataL
    rcases hterm with rfl | rfl | rfl <;>
      rcases hop with rfl | rfl | rfl | rfl | rfl | rfl
    all_goals first
      | (rw [mkCanonicalOut_data_none]
         exact cleanL_canonical_noop ds _ hne hdig (by decide))
      | (rw [mkCanonicalOut_data_op "<" (by decide) ds]
         exact cleanL_canonical_lt1 ds _ hne hdig (by decide))
      | (rw [mkCanonicalOut_data_op "<<" (by decide) ds]
         exact cleanL_canonical_lt2 ds _ hne hdig (by decide))
      | (rw [mkCanonicalOut_data_op ">" (by decide) ds]
         exact cleanL_canonical_gt1 ds _ hne hdig (by decide))
      | (rw [mkCanonicalOut_data_op ">>" (by decide) ds]
         exact cleanL_canonical_gt2 ds _ hne hdig (by decide))
      | (rw [mkCanonicalOut_data_op "^" (by decide) ds]
         exact cleanL_canonical_caret ds _ hne hdig (by decide))
  refine ⟨main, ?_⟩
  rw [main]
  exact main

/-- Witness: the canonical output `< 123456 |SNOMED CT concept|` is a
fixed point of the canonicalizer, and canonicalizing it twice equals
canonicalizing it once. -/
theorem clean_canonical_fixed_witness :
    ("<" : String) ∈ (["", "<", "<<", ">", ">>", "^"] : List String) ∧
    ("SNOMED CT concept" : String) ∈ (["SNOMED CT concept", "dm+d concept",
      "SNOMED CT reference set"] : List String) ∧
    (['1', '2', '3', '4', '5', '6'] : List Char) ≠ [] ∧
    ['1', '2', '3', '4', '5', '6'].all Char.isDigit = true ∧
    cleanAndStandardizeEcl
        (mkCanonicalOut "<" ['1', '2', '3', '4', '5', '6']
          "SNOMED CT concept") =
      mkCanonicalOut "<" ['1', '2', '3', '4', '5', '6'] "SNOMED CT concept" ∧
    cleanAndStandardizeEcl (cleanAndStandardizeEcl
        (mkCanonicalOut "<" ['1', '2', '3', '4', '5', '6']
          "SNOMED CT concept")) =
      cleanAndStandardizeEcl
        (mkCanonicalOut "<" ['1', '2', '3', '4', '5', '6']
          "SNOMED CT concept") :=
  ⟨by decide, by decide, by decide, by decide,
   (clean_canonical_fixed "<" "SNOMED CT concept" ['1', '2', '3', '4', '5', '6']
     (by decide) (by decide) (by decide) (by decide)).1,
   (clean_canonical_fixed "<" "SNOMED CT concept" ['1', '2', '3', '4', '5', '6']
     (by decide) (by decide) (by decide) (by decide)).2⟩
